import Mathlib

set_option maxRecDepth 100000

/-!
Verification development for the `job_parser` repository.

The Python sources are modelled shallowly: a Python `str` becomes a `List Char`
(`PyStr`), every function becomes a total executable Lean function, and the
module-level configuration dictionaries become Lean constants.  Python regular
expressions are hand-translated to explicit scanning functions; each
translation records, next to the definition, the backtracking analysis that
justifies it.  Floating-point similarity scores are modelled as rationals:
every score produced by the code is of the form `2*M/T` with `T ≤ 112`, so
adjacent distinct scores differ by at least `1/(112*112)`, far above the
rounding error of IEEE doubles, and every comparison made by the code gives
the same answer over `ℚ` as over floats.
-/

/-- Model of a Python `str`: a list of unicode characters. -/
abbrev PyStr := List Char

/-- Convert a Lean string literal into the model type. -/
def pys (s : String) : PyStr := s.toList

/-- Characters stripped by Python's `str.strip()` and matched by `\s` in
`re` (unicode mode): ASCII whitespace, the C1 separators, and the unicode
space code points. -/
def isPySpace (c : Char) : Bool :=
  c = ' ' || c = '\t' || c = '\n' || c = '\u000B' || c = '\u000C' || c = '\r' ||
  c = '\u001C' || c = '\u001D' || c = '\u001E' || c = '\u001F' ||
  c = '\u0085' || c = ' ' || c = ' ' ||
  (' ' ≤ c && c ≤ ' ') ||
  c = ' ' || c = ' ' || c = ' ' || c = ' ' || c = '　'

/-- Horizontal whitespace matched by the `[ \t]` class of `_RE_MULTI_SPACE`. -/
def isHSpace (c : Char) : Bool := c = ' ' || c = '\t'

/-- Newline test, as a Bool-valued predicate for the run-collapsing scanner. -/
def isNl (c : Char) : Bool := c = '\n'

/-- Python `lstrip()` over the model. -/
def pyLstrip (s : PyStr) : PyStr := s.dropWhile isPySpace

/-- Python `rstrip()` over the model. -/
def pyRstrip (s : PyStr) : PyStr := (s.reverse.dropWhile isPySpace).reverse

/-- Python `strip()` over the model. -/
def pyStrip (s : PyStr) : PyStr := pyRstrip (pyLstrip s)

/-- Python `text.split("\n")`: always at least one piece, pieces contain no
newline, `"".split("\n") == [""]`. -/
def splitNL : PyStr → List PyStr
  | [] => [[]]
  | c :: rest =>
    if c = '\n' then [] :: splitNL rest
    else
      match splitNL rest with
      | [] => [[c]]
      | h :: t => (c :: h) :: t

/-- Python `"\n".join(pieces)` over the model. -/
def joinNL : List PyStr → PyStr
  | [] => []
  | [l] => l
  | l :: rest => l ++ '\n' :: joinNL rest

/-- Python `s.startswith(pat)` over lists. -/
def startsList (pat s : PyStr) : Bool := s.take pat.length = pat

/-- Python substring containment `pat in s`. -/
def isSubstr (pat : PyStr) : PyStr → Bool
  | [] => startsList pat []
  | c :: rest => startsList pat (c :: rest) || isSubstr pat rest

/-- Python `s.replace(pat, rep)` for a single-character pattern: every
occurrence is one character, so the scan is a plain map. -/
def replaceChar (c r : Char) (s : PyStr) : PyStr :=
  s.map fun x => if x = c then r else x

/-- Scanner for `replaceStr`, written with a structural skip counter so the
kernel can evaluate it: a positive first argument means that many characters
were already consumed by an emitted occurrence of the pattern. -/
def replaceStrGo (pat rep : PyStr) : Nat → PyStr → PyStr
  | _, [] => []
  | Nat.succ k, _ :: rest => replaceStrGo pat rep k rest
  | 0, c :: rest =>
    if pat ≠ [] ∧ startsList pat (c :: rest) then
      rep ++ replaceStrGo pat rep (pat.length - 1) rest
    else
      c :: replaceStrGo pat rep 0 rest

/-- Python `s.replace(pat, rep)` for a non-empty pattern: left-to-right,
non-overlapping. -/
def replaceStr (pat rep : PyStr) (s : PyStr) : PyStr := replaceStrGo pat rep 0 s

/-- Scanner for `subRun`, structurally recursive: the accumulator holds the
run of class characters read so far, flushed when the run ends. -/
def subRunFlush (thr : Nat) (rep run : PyStr) : PyStr :=
  if run = [] then [] else if thr ≤ run.length then rep else run

def subRunGo (p : Char → Bool) (thr : Nat) (rep : PyStr) (run : PyStr) : PyStr → PyStr
  | [] => subRunFlush thr rep run
  | c :: rest =>
    if p c then subRunGo p thr rep (run ++ [c]) rest
    else subRunFlush thr rep run ++ c :: subRunGo p thr rep [] rest

/-- Model of `re.sub` for a pattern of the shape `c{thr,}` (a run of at least
`thr` characters of the class `p`, replaced by `rep`): `re.sub` finds maximal
runs left to right; runs shorter than the threshold are copied unchanged. -/
def subRun (p : Char → Bool) (thr : Nat) (rep : PyStr) (s : PyStr) : PyStr :=
  subRunGo p thr rep [] s

/-!
Model of CPython's `html.unescape`.  Numeric character references
(`&#...;`, decimal and hexadecimal) are modelled in full, including the
`_invalid_charrefs` replacement table, the surrogate and out-of-range
replacement character, and the `_invalid_codepoints` set.  The
named-reference table is restricted to the entries that can matter for this
repository's processing (`amp`, `lt`, `gt`, `quot`, `nbsp`, each with and
without the trailing semicolon); the remaining entries of the `html5` table
are omitted.  The omission is safe for the theorems below: every theorem
that quantifies over raw input uses `unescape` only through being the
identity on ampersand-free text, a property the full CPython function
shares, and every concrete input evaluated below stays inside the modelled
tables.

CPython scans for `&` followed by one alternative of the `_charref`
pattern: `#` and a decimal digit run, `#x`/`#X` and a hexadecimal digit
run, or a longest run (capped at 32) of characters outside `\t\n\f <&#;`,
each with an optional trailing `;`.  A named reference is resolved by the
longest table-key that is a prefix of length at least 2 of the matched
text, the unmatched tail being emitted verbatim; an unresolvable reference
is left as literal text.  Since a matched run contains no `&`, resuming the
scan right after the `&` (as done here) emits the same output as CPython's
resuming after the whole run.
-/

/-- Characters allowed inside a named character reference by CPython's
`_charref` pattern (the class `[^\t\n\f <&#;]`). -/
def refNameChar (c : Char) : Bool :=
  !(c = '\t' || c = '\n' || c = '\u000C' || c = ' ' || c = '<' || c = '&' ||
    c = '#' || c = ';')

/-- Named character references modelled from CPython's `html5` table
(restricted; see the module comment above). -/
def charrefTable : List (PyStr × PyStr) :=
  [ (pys "amp;", pys "&"), (pys "amp", pys "&"),
    (pys "lt;", pys "<"), (pys "lt", pys "<"),
    (pys "gt;", pys ">"), (pys "gt", pys ">"),
    (pys "quot;", pys "\""), (pys "quot", pys "\""),
    (pys "nbsp;", pys "\u00A0"), (pys "nbsp", pys "\u00A0") ]

/-- Longest-prefix lookup of a matched reference text in the table, trying
prefix lengths from the whole text down to 2 (CPython's `_replace_charref`).
Returns the replacement together with the unmatched tail of the text. -/
def lookupRef (m : PyStr) : Option (PyStr × PyStr) :=
  (List.range' 2 (m.length - 1)).reverse.findSome? fun x =>
    (charrefTable.find? fun e => e.1 = m.take x).map fun e => (e.2, m.drop x)

/-- The ASCII digit class `[0-9]` of the numeric `_charref` alternatives. -/
def isAsciiDigit (c : Char) : Bool := '0' ≤ c && c ≤ '9'

/-- The hexadecimal digit class `[0-9a-fA-F]`. -/
def isHexDigit (c : Char) : Bool :=
  ('0' ≤ c && c ≤ '9') || ('a' ≤ c && c ≤ 'f') || ('A' ≤ c && c ≤ 'F')

def hexDigitVal (c : Char) : Nat :=
  if '0' ≤ c && c ≤ '9' then c.toNat - '0'.toNat
  else if 'a' ≤ c && c ≤ 'f' then c.toNat - 'a'.toNat + 10
  else c.toNat - 'A'.toNat + 10

def decNum (ds : PyStr) : Nat := ds.foldl (fun acc c => acc * 10 + (c.toNat - '0'.toNat)) 0

def hexNum (ds : PyStr) : Nat := ds.foldl (fun acc c => acc * 16 + hexDigitVal c) 0

/-- CPython's `_invalid_charrefs` table: numeric references to `0x00`,
`0x0d` and the windows-1252 range `0x80`–`0x9f` are mapped specially. -/
def invalidCharrefs : List (Nat × PyStr) :=
  [ (0x00, ['\uFFFD']), (0x0d, ['\r']), (0x80, ['\u20AC']), (0x81, ['\u0081']),
    (0x82, ['\u201A']), (0x83, ['\u0192']), (0x84, ['\u201E']), (0x85, ['\u2026']),
    (0x86, ['\u2020']), (0x87, ['\u2021']), (0x88, ['\u02C6']), (0x89, ['\u2030']),
    (0x8a, ['\u0160']), (0x8b, ['\u2039']), (0x8c, ['\u0152']), (0x8d, ['\u008D']),
    (0x8e, ['\u017D']), (0x8f, ['\u008F']), (0x90, ['\u0090']), (0x91, ['\u2018']),
    (0x92, ['\u2019']), (0x93, ['\u201C']), (0x94, ['\u201D']), (0x95, ['\u2022']),
    (0x96, ['\u2013']), (0x97, ['\u2014']), (0x98, ['\u02DC']), (0x99, ['\u2122']),
    (0x9a, ['\u0161']), (0x9b, ['\u203A']), (0x9c, ['\u0153']), (0x9d, ['\u009D']),
    (0x9e, ['\u017E']), (0x9f, ['\u0178']) ]

/-- CPython's `_invalid_codepoints` set (controls and noncharacters), as a
predicate; it is only consulted for values at most `0x10FFFF`, where the
`n % 0x10000` test captures exactly the plane-end noncharacters of the
set. -/
def isInvalidCodepoint (n : Nat) : Bool :=
  (1 ≤ n && n ≤ 8) || n = 0xb || (0xe ≤ n && n ≤ 0x1f) || (0x7f ≤ n && n ≤ 0x9f) ||
  (0xfdd0 ≤ n && n ≤ 0xfdef) || n % 0x10000 = 0xfffe || n % 0x10000 = 0xffff

/-- CPython's `_replace_charref` on a numeric reference: the
`_invalid_charrefs` table first, then surrogates and values beyond
`0x10FFFF` to the replacement character, then the `_invalid_codepoints` set
to the empty string, and otherwise `chr(num)`. -/
def numericRef (num : Nat) : PyStr :=
  match invalidCharrefs.find? fun e => e.1 = num with
  | some e => e.2
  | none =>
    if (0xD800 ≤ num ∧ num ≤ 0xDFFF) ∨ 0x10FFFF < num then ['\uFFFD']
    else if isInvalidCodepoint num then []
    else [Char.ofNat num]

/-- Attempt to read one character reference right after an ampersand,
following the alternation of CPython's `_charref` pattern: a decimal
reference `#[0-9]+;?`, a hexadecimal reference `#[xX][0-9a-fA-F]+;?`, or a
named reference.  Returns the emitted text and the number of input
characters consumed. -/
def matchRef (rest : PyStr) : Option (PyStr × Nat) :=
  if rest.head? = some '#' then
    let ds := (rest.drop 1).takeWhile isAsciiDigit
    if ds ≠ [] then
      if (rest.drop (1 + ds.length)).head? = some ';' then
        some (numericRef (decNum ds), 1 + ds.length + 1)
      else
        some (numericRef (decNum ds), 1 + ds.length)
    else if (rest.drop 1).head? = some 'x' ∨ (rest.drop 1).head? = some 'X' then
      let hs := (rest.drop 2).takeWhile isHexDigit
      if hs ≠ [] then
        if (rest.drop (2 + hs.length)).head? = some ';' then
          some (numericRef (hexNum hs), 2 + hs.length + 1)
        else
          some (numericRef (hexNum hs), 2 + hs.length)
      else none
    else none
  else
    let name := (rest.takeWhile refNameChar).take 32
    if name = [] then none
    else
      let after := rest.drop name.length
      let m := if after.head? = some ';' then name ++ [';'] else name
      let n := if after.head? = some ';' then name.length + 1 else name.length
      match lookupRef m with
      | some (rep, leftover) => some (rep ++ leftover, n)
      | none => none

/-- Scanner for `unescape`, structurally recursive: a positive first argument
means that many characters were already consumed by a resolved reference. -/
def unescapeGo : Nat → PyStr → PyStr
  | _, [] => []
  | Nat.succ k, _ :: rest => unescapeGo k rest
  | 0, c :: rest =>
    if c = '&' then
      match matchRef rest with
      | some (em, n) => em ++ unescapeGo n rest
      | none => '&' :: unescapeGo 0 rest
    else c :: unescapeGo 0 rest

/-- Model of CPython's `html.unescape` (restricted table; see above). -/
def unescape (s : PyStr) : PyStr := unescapeGo 0 s

/-- Model of `cleaning._strip_html_entities`: `html.unescape`, then the
literal `"&nbsp;"` replacement, then the non-breaking-space replacement. -/
def strip_html_entities (l : PyStr) : PyStr :=
  replaceChar ' ' ' ' (replaceStr (pys "&nbsp;") (pys " ") (unescape l))

/-- Model of `cleaning._remove_quotes`: the pattern `["]|[“”]` matches single
characters, so substitution by the empty string is a filter. -/
def remove_quotes (l : PyStr) : PyStr :=
  l.filter fun c => !(c = '"' || c = '“' || c = '”')

/-- Model of `cleaning._standardize_spaces`: full-width space to half-width,
then collapse runs of two or more characters of `[ \t]` to one space. -/
def standardize_spaces (l : PyStr) : PyStr :=
  subRun isHSpace 2 [' '] (replaceChar '　' ' ' l)

/-- Model of `cleaning._collapse_newlines`: first `\n{2,}` becomes two
newlines, then `\n{4,}` becomes three. -/
def collapse_newlines (t : PyStr) : PyStr :=
  subRun isNl 4 (pys "\n\n\n") (subRun isNl 2 (pys "\n\n") t)

/-- Per-line body of the loop in `cleaning.normalize_lines`. -/
def cleanOneLine (l : PyStr) : PyStr :=
  pyRstrip (standardize_spaces (remove_quotes (strip_html_entities l)))

/-- Model of `cleaning.normalize_lines`. -/
def normalize_lines (L : List PyStr) : PyStr :=
  pyStrip (collapse_newlines (joinNL (L.map cleanOneLine)))

/-- Model of `cleaning.clean_text`: unify line breaks, split, normalize. -/
def clean_text (raw : PyStr) : PyStr :=
  normalize_lines (splitNL (replaceChar '\r' '\n' (replaceStr (pys "\r\n") (pys "\n") raw)))

example : clean_text (pys "a\r\nb") = pys "a\nb" := by decide
example : clean_text (pys "  hello   world  ") = pys "hello world" := by decide
example : clean_text (pys "a\n\n\n\n\nb") = pys "a\n\nb" := by decide
example : clean_text (pys "&amp;amp;") = pys "&amp;" := by decide
example : clean_text (pys "&amp;") = pys "&" := by decide
example : clean_text (pys "a&nbsp;b") = pys "a b" := by decide
example : clean_text (pys "“x”　y") = pys "x y" := by decide
example : clean_text (pys " \n \n ") = pys "" := by decide

/-!
Model of `difflib.SequenceMatcher(None, a, b).ratio()`.  Both strings here
are shorter than 200 characters, so difflib's autojunk heuristic never fires.
`find_longest_match` returns the longest matching block; among blocks of
maximal length it prefers the smallest start in `a`, then the smallest start
in `b` — realised below by scanning start pairs in lexicographic order and
keeping the first strict improvement.  `ratio` is `2*M/T` where `M` sums the
block lengths of the recursive decomposition and `T` is the total length;
the fuel of the recursion is the total window size plus one, which strictly
dominates its depth (every recursive window is strictly smaller), so the
fuel case is never reached.
-/

/-- Length of the common prefix of two lists. -/
def commonPfxLen : PyStr → PyStr → Nat
  | a :: as, b :: bs => if a = b then commonPfxLen as bs + 1 else 0
  | _, _ => 0

/-- One step of the longest-matching-block scan. -/
def flmStep (a b : PyStr) (ahi bhi : Nat) (best : Nat × Nat × Nat) (ij : Nat × Nat) :
    Nat × Nat × Nat :=
  let k := commonPfxLen ((a.drop ij.1).take (ahi - ij.1)) ((b.drop ij.2).take (bhi - ij.2))
  if best.2.2 < k then (ij.1, ij.2, k) else best

/-- Model of `SequenceMatcher.find_longest_match` on the window
`a[alo:ahi]`, `b[blo:bhi]` (no junk, no autojunk). -/
def findLongestMatch (a b : PyStr) (alo ahi blo bhi : Nat) : Nat × Nat × Nat :=
  ((List.range' alo (ahi - alo)).flatMap fun i =>
    (List.range' blo (bhi - blo)).map fun j => (i, j)).foldl
    (flmStep a b ahi bhi) (alo, blo, 0)

/-- Total number of matched characters over the recursive block
decomposition of `get_matching_blocks`. -/
def matchTotalGo (a b : PyStr) : Nat → Nat → Nat → Nat → Nat → Nat
  | 0, _, _, _, _ => 0
  | Nat.succ fuel, alo, ahi, blo, bhi =>
    let r := findLongestMatch a b alo ahi blo bhi
    if r.2.2 = 0 then 0
    else matchTotalGo a b fuel alo r.1 blo r.2.1 + r.2.2 +
      matchTotalGo a b fuel (r.1 + r.2.2) ahi (r.2.1 + r.2.2) bhi

def matchTotal (a b : PyStr) : Nat :=
  matchTotalGo a b (a.length + b.length + 1) 0 a.length 0 b.length

/-- Model of `header_detection._similarity`: `SequenceMatcher.ratio()`, as a
rational.  difflib returns `1.0` when both strings are empty. -/
def similarity (a b : PyStr) : ℚ :=
  if a.length + b.length = 0 then 1
  else mkRat (2 * matchTotal a b) (a.length + b.length)

/-- Colon class `[：:]` used by both header regexes. -/
def isColonCh (c : Char) : Bool := c = ':' || c = '：'

/-- Decorative marker class of `HEADER_PATTERN` (the literal `▶︎` in the
source is `▶` followed by U+FE0E, so the class also contains U+FE0E). -/
def isMarkerCh (c : Char) : Bool :=
  c = '◆' || c = '■' || c = '□' || c = '●' || c = '★' || c = '☆' || c = '◇' ||
  c = '▼' || c = '▶' || c = '︎'

def isOpenBr (c : Char) : Bool := c = '[' || c = '【'

def isCloseBr (c : Char) : Bool := c = ']' || c = '】'

/-- Character class of `PUNCTUATION_TRIMMER`: `[\-‐−―・\s]`. -/
def isTrimPunct (c : Char) : Bool :=
  c = '-' || c = '‐' || c = '−' || c = '―' || c = '・' || isPySpace c

/-- Model of `header_detection._normalize_title`: strip, then remove the
leading and the trailing run of trimmer characters (`PUNCTUATION_TRIMMER`
anchors one alternative at each end). -/
def normalize_title (t : PyStr) : PyStr :=
  let s := pyStrip t
  ((s.dropWhile isTrimPunct).reverse.dropWhile isTrimPunct).reverse

/-- Decimal digits for the numeric-label guard `\d+(\.\d+)?`.  Python's `\d`
covers every unicode decimal digit; ASCII and full-width digits are the ones
that can occur here, and omitting the more exotic ranges only widens the set
of lines the model acknowledges as headers — no theorem below depends on
them. -/
def isPyDigit (c : Char) : Bool :=
  ('0' ≤ c && c ≤ '9') || ('０' ≤ c && c ≤ '９')

/-- Model of `re.fullmatch(r"\d+(\.\d+)?", s)`. -/
def isNumericLabel (s : PyStr) : Bool :=
  let d1 := s.takeWhile isPyDigit
  let r := s.drop d1.length
  decide (d1 ≠ []) &&
    (r.isEmpty ||
      (match r with
       | '.' :: r2 => decide (r2 ≠ []) && r2.all isPyDigit
       | _ => false))

/-- Model of `INLINE_SPLIT_PATTERN.match`: `[^：:]+` greedily takes the text
before the first colon (it must be non-empty), `[：:]` eats that colon, and
`\s*(?P<body>.+)` requires at least one character after it.  Returns the
label text and the raw remainder after the colon. -/
def inlineSplit (s : PyStr) : Option (PyStr × PyStr) :=
  let pre := s.takeWhile fun c => !isColonCh c
  match s.drop pre.length with
  | _ :: rem => if pre ≠ [] ∧ rem ≠ [] then some (pre, rem) else none
  | [] => none

/-- The `body` group of `INLINE_SPLIT_PATTERN`: `\s*` consumes the leading
whitespace of the remainder greedily, backing off one character when `.+`
would otherwise be left with nothing (a remainder of pure whitespace). -/
def inlineBodyGroup (rem : PyStr) : PyStr :=
  let b := rem.dropWhile isPySpace
  if b = [] then (rem.reverse.take 1).reverse else b

/-!
Model of `HEADER_PATTERN.match`, i.e.

  `^([markers]+)?\s*[\[【]?([^\]】]+)[\]】]?\s*[：:]*\s*(.+)?$`

under Python's backtracking.  Once the core group has matched at least one
character the remainder of the pattern always succeeds (`.+` accepts
anything), so the first configuration in the engine's preference order wins:
maximal marker run, then maximal whitespace run, then the open bracket if
present, then the maximal run of non-closing-bracket characters.  When the
core would be empty at that point the engine backtracks, in order: drop the
open-bracket option (the bracket itself becomes the first core character);
else give back one whitespace character; else give back one marker
character; else the match fails (the input starts with a closing bracket).
The groups after the core are all determined greedily: an optional closing
bracket, whitespace, colons, whitespace, and the rest of the line as the
inline group (empty when nothing remains).
-/

/-- Tail of `HEADER_PATTERN` after the core: optional closing bracket, then
`\s*[：:]*\s*`, then the inline group (as text; empty encodes `None`, which
the source converts to `""`). -/
def hpTail (after : PyStr) : PyStr :=
  let a1 := match after with
    | c :: r => if isCloseBr c then r else after
    | [] => after
  ((a1.dropWhile isPySpace).dropWhile isColonCh).dropWhile isPySpace

/-- Backtracking cases of `HEADER_PATTERN.match` when the greedy core is
empty: give back one whitespace character, else one marker character, else
fail.  Returns (prefix group matched, core group, inline group). -/
def hpBacktrack (s p w r1 : PyStr) : Option (Bool × PyStr × PyStr) :=
  if w ≠ [] then
    let r := r1.drop (w.length - 1)
    let core := r.takeWhile fun x => !isCloseBr x
    some (p ≠ [], core, hpTail (r.drop core.length))
  else if p ≠ [] then
    let r := s.drop (p.length - 1)
    let core := r.takeWhile fun x => !isCloseBr x
    some (1 < p.length, core, hpTail (r.drop core.length))
  else none

/-- Model of `HEADER_PATTERN.match` (see the analysis above). -/
def headerPatternMatch (s : PyStr) : Option (Bool × PyStr × PyStr) :=
  let p := s.takeWhile isMarkerCh
  let r1 := s.drop p.length
  let w := r1.takeWhile isPySpace
  let r2 := r1.drop w.length
  match r2 with
  | c :: rest =>
    if isOpenBr c then
      let core0 := rest.takeWhile fun x => !isCloseBr x
      if core0 ≠ [] then some (p ≠ [], core0, hpTail (rest.drop core0.length))
      else
        let core1 := r2.takeWhile fun x => !isCloseBr x
        some (p ≠ [], core1, hpTail (r2.drop core1.length))
    else
      let core := r2.takeWhile fun x => !isCloseBr x
      if core ≠ [] then some (p ≠ [], core, hpTail (r2.drop core.length))
      else hpBacktrack s p w r1
  | [] => hpBacktrack s p w r1

/-- Model of `header_detection._looks_like_header`.  `none` models the
`(False, 0.0, "", "")` return; `some (score, header, inline)` models a
`True` return. -/
def looks_like_header (line : PyStr) : Option (ℚ × PyStr × PyStr) :=
  let stripped := pyStrip line
  if stripped = [] then none
  else if 50 < stripped.length then none
  else
    match inlineSplit stripped with
    | some (pre, rem) =>
      let header := normalize_title pre
      if isNumericLabel header then none
      else some (mkRat 9 10, header, pyStrip (inlineBodyGroup rem))
    | none =>
      let trailingColon : Option (ℚ × PyStr × PyStr) :=
        if stripped.getLast? = some ':' ∨ stripped.getLast? = some '：' then
          some (mkRat 11 20, normalize_title stripped.dropLast, [])
        else none
      match headerPatternMatch stripped with
      | some (pref, core, inl) =>
        let hasMarker := pref || stripped.contains '[' || stripped.contains '【' ||
          stripped.contains ']' || stripped.contains '】' || !inl.isEmpty
        if hasMarker then
          -- base score 0.6 with a marker run else 0.5, plus 0.1 when an
          -- inline remainder exists; the sums are folded to literals so the
          -- kernel can evaluate them (`Rat.add` is irreducible).
          some ((if pref then (if !inl.isEmpty then mkRat 7 10 else mkRat 6 10)
                 else (if !inl.isEmpty then mkRat 6 10 else mkRat 5 10)),
            normalize_title core, pyStrip inl)
        else trailingColon
      | none => trailingColon

/-- Model of `header_detection.HeaderCandidate`. -/
structure HeaderCandidate where
  index : Nat
  title : PyStr
  inline_content : PyStr
  score : ℚ
deriving DecidableEq

instance : Inhabited HeaderCandidate := ⟨⟨0, [], [], 0⟩⟩

/-- Pair each line with its index (Python `enumerate`). -/
def withIdx : Nat → List PyStr → List (Nat × PyStr)
  | _, [] => []
  | i, l :: ls => (i, l) :: withIdx (i + 1) ls

/-- Model of `header_detection.identify_headers`. -/
def identify_headers (lines : List PyStr) : List HeaderCandidate :=
  (withIdx 0 lines).filterMap fun il =>
    (looks_like_header il.2).map fun r => ⟨il.1, r.2.1, r.2.2, r.1⟩

/-- Model of `header_detection.CANONICAL_FIELDS` (dict iteration follows
insertion order). -/
def CANONICAL_FIELDS : List (String × List PyStr) :=
  [("job_title", [pys "職種", pys "募集職種", pys "ポジション", pys "タイトル"]),
   ("company", [pys "会社名", pys "企業名", pys "社名", pys "運営"]),
   ("salary", [pys "給与", pys "給料", pys "報酬", pys "年収", pys "月給", pys "時給"])]

/-- The (field, synonym) pairs in the iteration order of the nested loops of
`find_best_field_match`. -/
def allSynonymPairs : List (String × PyStr) :=
  CANONICAL_FIELDS.flatMap fun fs => fs.2.map fun syn => (fs.1, syn)

/-- Model of `header_detection.find_best_field_match`: `0.55 = mkRat 11 20`. -/
def find_best_field_match (title : PyStr) : Option String :=
  let r := allSynonymPairs.foldl
    (fun acc p => if acc.2 < similarity title p.2 then (some p.1, similarity title p.2) else acc)
    ((none : Option String), (0 : ℚ))
  if mkRat 11 20 ≤ r.2 then r.1 else none

/-- End index of each candidate's span: the next candidate's line index, or
the number of lines for the last candidate (the loop body of
`group_sections`). -/
def withEnds : List HeaderCandidate → Nat → List (HeaderCandidate × Nat)
  | [], _ => []
  | [c], n => [(c, n)]
  | c :: c' :: rest, n => (c, c'.index) :: withEnds (c' :: rest) n

/-- Body lines collected for one candidate: the inline content if non-empty,
then the stripped non-empty lines of `lines[index+1:end]`. -/
def sectionBodyLines (lines : List PyStr) (c : HeaderCandidate) (e : Nat) : List PyStr :=
  (if c.inline_content ≠ [] then [c.inline_content] else []) ++
    ((lines.drop (c.index + 1)).take (e - (c.index + 1))).filterMap fun l =>
      if pyStrip l ≠ [] then some (pyStrip l) else none

/-- Python dict assignment `d[k] = v`: overwriting keeps the original
insertion position, a new key is appended. -/
def dictInsert (d : List (PyStr × PyStr)) (k v : PyStr) : List (PyStr × PyStr) :=
  if d.any fun p => p.1 = k then
    d.map fun p => if p.1 = k then (k, v) else p
  else d ++ [(k, v)]

/-- Python dict lookup `d.get(k)`. -/
def dictLookup (d : List (PyStr × PyStr)) (k : PyStr) : Option PyStr :=
  (d.find? fun p => p.1 = k).map fun p => p.2

/-- Model of `header_detection.group_sections`. -/
def group_sections (lines : List PyStr) : List (PyStr × PyStr) :=
  let headers := identify_headers lines
  if headers = [] then [(pys "本文", pyStrip (joinNL lines))]
  else
    (withEnds headers lines.length).foldl
      (fun acc ce =>
        dictInsert acc ce.1.title (pyStrip (joinNL (sectionBodyLines lines ce.1 ce.2)))) []

example : similarity (pys "職種") (pys "職種") = 1 := by decide
example : looks_like_header (pys "10:00") = none := by decide
example : looks_like_header (pys "10:00〜19:00（フレックス制）") = none := by decide
example : looks_like_header (pys "勤務地：東京都千代田区") =
    some (mkRat 9 10, pys "勤務地", pys "東京都千代田区") := by decide
example : looks_like_header (pys "【給与】") = some (mkRat 5 10, pys "給与", []) := by decide
example : looks_like_header (pys "preamble text here") = none := by decide
example : looks_like_header (pys "abc:") = some (mkRat 11 20, pys "abc", []) := by decide
example : looks_like_header (pys "◆ポイント") = some (mkRat 6 10, pys "ポイント", []) := by decide
example : find_best_field_match (pys "職種") = some "job_title" := by decide
example : find_best_field_match (pys "zzz") = none := by decide
example : group_sections [pys "pre", pys "【A】", pys "x"] = [(pys "A", pys "x")] := by decide
example : group_sections [pys "no headers", pys "at all"] =
    [(pys "本文", pys "no headers\nat all")] := by decide

/-- Model of `parser.DEFAULT_SECTION_TEMPLATE` (insertion order preserved). -/
def DEFAULT_SECTION_TEMPLATE : List (PyStr × PyStr) :=
  [(pys "キャッチコピー", []), (pys "勤務地", []), (pys "仕事内容", []),
   (pys "求めている人材", []), (pys "勤務時間", []), (pys "勤務時間詳細", []),
   (pys "勤務地所在地", []), (pys "交通アクセス", []), (pys "給与詳細", []),
   (pys "試用期間", []), (pys "待遇・福利厚生", []), (pys "社会保険", []),
   (pys "選考プロセス", [])]

/-- First line of a body: Python `body.split("\n")[0]`. -/
def firstLine (b : PyStr) : PyStr := b.takeWhile fun c => !(c = '\n')

/-- The stripped non-empty lines (`[line.strip() for line in lines if line.strip()]`). -/
def nonEmptyLines (lines : List PyStr) : List PyStr :=
  lines.filterMap fun l => if pyStrip l ≠ [] then some (pyStrip l) else none

/-- Positional seeding step of `_guess_primary_fields`: first non-empty line
as the title guess, second as the company guess. -/
def seedFields (ne : List PyStr) : PyStr × PyStr :=
  match ne with
  | [] => ([], [])
  | [t] => (t, [])
  | t :: c :: _ => (t, c)

/-- Section-driven refinement loop of `_guess_primary_fields`. -/
def refineFromSections (secs : List (PyStr × PyStr)) (acc : PyStr × PyStr × PyStr) :
    PyStr × PyStr × PyStr :=
  secs.foldl
    (fun acc hb =>
      match find_best_field_match hb.1 with
      | some f =>
        if f = "job_title" ∧ hb.2 ≠ [] then (firstLine hb.2, acc.2.1, acc.2.2)
        else if f = "company" ∧ hb.2 ≠ [] then (acc.1, firstLine hb.2, acc.2.2)
        else if f = "salary" ∧ hb.2 ≠ [] then (acc.1, acc.2.1, hb.2)
        else acc
      | none => acc)
    acc

/-- Compensation keywords of the inline salary scan. -/
def salaryKeywords : List PyStr :=
  [pys "給与", pys "年収", pys "月給", pys "時給", pys "日給", pys "賞与"]

/-- Organisation suffix markers of the company scan. -/
def companyKeywords : List PyStr :=
  [pys "株式会社", pys "有限会社", pys "合同会社", pys "Inc", pys "LLC", pys "Co."]

/-- Python `s.startswith(("【", "["))`. -/
def startsBracket (t : PyStr) : Bool :=
  match t with
  | c :: _ => c = '【' || c = '['
  | [] => false

/-- Model of `parser._guess_primary_fields`. -/
def guess_primary_fields (lines : List PyStr) (sections : List (PyStr × PyStr)) :
    PyStr × PyStr × PyStr :=
  let ne := nonEmptyLines lines
  let seeds := seedFields ne
  let r := refineFromSections sections (seeds.1, seeds.2, [])
  let salary :=
    if r.2.2 = [] then
      match ne.find? (fun l => salaryKeywords.any fun k => isSubstr k l) with
      | some l => l
      | none => r.2.2
    else r.2.2
  let company :=
    if r.2.1 = [] then
      match ne.find? (fun l => companyKeywords.any fun k => isSubstr k l) with
      | some l => l
      | none => r.2.1
    else r.2.1
  let job_title :=
    if r.1 = [] ∨ startsBracket r.1 then
      match sections.find? (fun hb => pyStrip hb.2 ≠ []) with
      | some hb => firstLine hb.2
      | none => r.1
    else r.1
  (job_title, company, salary)

/-- Model of `parser._merge_sections`: `{**DEFAULT_SECTION_TEMPLATE}`
copied, then each detected section assigned in order. -/
def merge_sections (detected : List (PyStr × PyStr)) : List (PyStr × PyStr) :=
  detected.foldl (fun acc hb => dictInsert acc hb.1 hb.2) DEFAULT_SECTION_TEMPLATE

/-- Model of `parser.parse_job`'s return value. -/
structure ParsedRecord where
  job_title : PyStr
  company : PyStr
  salary : PyStr
  sections : List (PyStr × PyStr)
deriving DecidableEq

/-- Model of `parser.parse_job`. -/
def parse_job (raw : PyStr) : ParsedRecord :=
  let cleaned := clean_text raw
  let lines := splitNL cleaned
  let detected := group_sections lines
  let g := guess_primary_fields lines detected
  { job_title := g.1, company := g.2.1, salary := g.2.2,
    sections := merge_sections detected }

example :
    parse_job [] =
      { job_title := [], company := [], salary := [],
        sections := DEFAULT_SECTION_TEMPLATE ++ [(pys "本文", [])] } := by decide
example :
    guess_primary_fields [pys "A", pys "B"] [(pys "職種", pys "NewTitle")] =
      (pys "NewTitle", pys "B", []) := by decide
example :
    (parse_job (pys "【給与】\n月給40万円〜＋業績賞与")).salary =
      pys "月給40万円〜＋業績賞与" := by decide
example :
    dictLookup (parse_job (pys "【給与】\n月給40万円〜＋業績賞与")).sections (pys "給与") =
      some (pys "月給40万円〜＋業績賞与") := by decide

/-! ### Basic facts about the string model -/

/-- All-whitespace test. -/
def allWs (s : PyStr) : Bool := s.all isPySpace

theorem dropWhile_append_of_all {p : Char → Bool} {a b : PyStr} (h : ∀ c ∈ a, p c) :
    (a ++ b).dropWhile p = b.dropWhile p := by
  induction a with
  | nil => simp
  | cons x xs ih =>
    have hx : p x := h x (List.mem_cons_self x xs)
    simp only [List.cons_append, List.dropWhile_cons_of_pos hx]
    exact ih fun c hc => h c (List.mem_cons_of_mem x hc)

theorem dropWhile_length_le {α : Type} (p : α → Bool) (l : List α) :
    (l.dropWhile p).length ≤ l.length := by
  induction l with
  | nil => simp
  | cons a l ih =>
    by_cases h : p a
    · rw [List.dropWhile_cons_of_pos h]; exact Nat.le_succ_of_le ih
    · rw [List.dropWhile_cons_of_neg h]

theorem dropWhile_ne_nil_of_exists {p : Char → Bool} {a : PyStr} {c : Char}
    (hc : c ∈ a) (hp : ¬ p c) : a.dropWhile p ≠ [] := by
  induction a with
  | nil => cases hc
  | cons x xs ih =>
    by_cases hx : p x
    · rw [List.dropWhile_cons_of_pos hx]
      rcases List.mem_cons.mp hc with rfl | hmem
      · exact absurd hx hp
      · exact ih hmem
    · rw [List.dropWhile_cons_of_neg hx]
      simp

theorem dropWhile_append_of_ne_nil {p : Char → Bool} {a b : PyStr}
    (h : a.dropWhile p ≠ []) : (a ++ b).dropWhile p = a.dropWhile p ++ b := by
  induction a with
  | nil => exact absurd rfl h
  | cons x xs ih =>
    by_cases hx : p x
    · rw [List.dropWhile_cons_of_pos hx] at h
      simp only [List.cons_append, List.dropWhile_cons_of_pos hx,
        List.dropWhile_cons_of_pos hx, ih h]
    · simp [List.dropWhile_cons_of_neg hx]

theorem dropWhile_eq_nil_of_all {p : Char → Bool} {a : PyStr} (h : ∀ c ∈ a, p c) :
    a.dropWhile p = [] := by
  have := @dropWhile_append_of_all p a [] h
  simpa using this

theorem mem_of_mem_dropWhile {p : Char → Bool} {a : PyStr} {c : Char}
    (h : c ∈ a.dropWhile p) : c ∈ a := by
  induction a with
  | nil => simpa using h
  | cons x xs ih =>
    by_cases hx : p x
    · rw [List.dropWhile_cons_of_pos hx] at h
      exact List.mem_cons_of_mem x (ih h)
    · rwa [List.dropWhile_cons_of_neg hx] at h

theorem pyRstrip_append_of_allWs {a b : PyStr} (h : ∀ c ∈ b, isPySpace c) :
    pyRstrip (a ++ b) = pyRstrip a := by
  unfold pyRstrip
  rw [List.reverse_append, dropWhile_append_of_all (fun c hc => h c (List.mem_reverse.mp hc))]

theorem pyRstrip_append_of_nws {a b : PyStr} {c : Char} (hc : c ∈ b)
    (hws : ¬ isPySpace c = true) : pyRstrip (a ++ b) = a ++ pyRstrip b := by
  unfold pyRstrip
  rw [List.reverse_append,
    dropWhile_append_of_ne_nil (dropWhile_ne_nil_of_exists (List.mem_reverse.mpr hc) hws),
    List.reverse_append, List.reverse_reverse]

theorem pyLstrip_append_of_allWs {a b : PyStr} (h : ∀ c ∈ a, isPySpace c) :
    pyLstrip (a ++ b) = pyLstrip b := dropWhile_append_of_all h

theorem pyLstrip_append_of_nws {a b : PyStr} {c : Char} (hc : c ∈ a)
    (hws : ¬ isPySpace c = true) : pyLstrip (a ++ b) = pyLstrip a ++ b :=
  dropWhile_append_of_ne_nil (dropWhile_ne_nil_of_exists hc hws)

theorem pyRstrip_eq_nil_of_allWs {a : PyStr} (h : ∀ c ∈ a, isPySpace c) :
    pyRstrip a = [] := by
  have := @pyRstrip_append_of_allWs [] a h
  simpa using this

theorem pyLstrip_eq_nil_of_allWs {a : PyStr} (h : ∀ c ∈ a, isPySpace c) :
    pyLstrip a = [] :=
  dropWhile_eq_nil_of_all h

theorem mem_of_mem_pyRstrip {a : PyStr} {c : Char} (h : c ∈ pyRstrip a) : c ∈ a := by
  unfold pyRstrip at h
  rw [List.mem_reverse] at h
  exact List.mem_reverse.mp (mem_of_mem_dropWhile h)

theorem mem_of_mem_pyLstrip {a : PyStr} {c : Char} (h : c ∈ pyLstrip a) : c ∈ a :=
  mem_of_mem_dropWhile h

theorem mem_of_mem_pyStrip {a : PyStr} {c : Char} (h : c ∈ pyStrip a) : c ∈ a :=
  mem_of_mem_pyLstrip (mem_of_mem_pyRstrip h)

/-- The head of a non-empty `lstrip` result is never whitespace. -/
theorem pyLstrip_head_not_ws {a : PyStr} {c : Char} {r : PyStr}
    (h : pyLstrip a = c :: r) : ¬ isPySpace c = true := by
  intro hws
  induction a with
  | nil => simp [pyLstrip] at h
  | cons x xs ih =>
    by_cases hx : isPySpace x
    · rw [pyLstrip, List.dropWhile_cons_of_pos hx] at h
      exact ih h
    · rw [pyLstrip, List.dropWhile_cons_of_neg hx] at h
      cases h
      exact hx hws

/-- The last element of a non-empty `rstrip` result is never whitespace. -/
theorem pyRstrip_getLast_not_ws {a : PyStr} {c : Char} (h : (pyRstrip a).getLast? = some c) :
    ¬ isPySpace c = true := by
  unfold pyRstrip at h
  have hx := List.head?_dropWhile_not isPySpace a.reverse
  rcases hd : a.reverse.dropWhile isPySpace with _ | ⟨x, r⟩
  · rw [hd] at h; simp at h
  · rw [hd] at h hx
    simp only [List.head?_cons] at hx
    rw [List.getLast?_reverse] at h
    simp only [List.head?_cons, Option.some.injEq] at h
    subst h
    simp [hx]

theorem splitNL_ne_nil (s : PyStr) : splitNL s ≠ [] := by
  induction s with
  | nil => simp [splitNL]
  | cons c rest ih =>
    by_cases hc : c = '\n'
    · simp [splitNL, hc]
    · rcases hr : splitNL rest with _ | ⟨h, t⟩
      · exact absurd hr ih
      · simp [splitNL, hc, hr]

theorem cons_headI_tail {l : List PyStr} (h : l ≠ []) : l.headI :: l.tail = l := by
  cases l with
  | nil => exact absurd rfl h
  | cons a t => rfl

theorem joinNL_cons {l : PyStr} {M : List PyStr} (h : M ≠ []) :
    joinNL (l :: M) = l ++ '\n' :: joinNL M := by
  cases M with
  | nil => exact absurd rfl h
  | cons a t => rfl

theorem joinNL_splitNL (s : PyStr) : joinNL (splitNL s) = s := by
  induction s with
  | nil => simp [splitNL, joinNL]
  | cons c rest ih =>
    by_cases hc : c = '\n'
    · subst hc
      rw [show splitNL ('\n' :: rest) = [] :: splitNL rest by simp [splitNL],
        joinNL_cons (splitNL_ne_nil rest)]
      simp [ih]
    · rcases hr : splitNL rest with _ | ⟨h, t⟩
      · exact absurd hr (splitNL_ne_nil rest)
      · rw [show splitNL (c :: rest) = (c :: h) :: t by simp [splitNL, hc, hr]]
        cases t with
        | nil =>
          rw [hr] at ih
          simpa [joinNL] using congrArg (c :: ·) ih
        | cons t1 ts =>
          rw [joinNL_cons (by simp)]
          rw [hr, joinNL_cons (by simp)] at ih
          simpa using congrArg (c :: ·) ih

theorem mem_splitNL_no_nl {s : PyStr} {l : PyStr} (h : l ∈ splitNL s) : '\n' ∉ l := by
  induction s generalizing l with
  | nil =>
    simp [splitNL] at h
    simp [h]
  | cons c rest ih =>
    by_cases hc : c = '\n'
    · rw [show splitNL (c :: rest) = [] :: splitNL rest by simp [splitNL, hc]] at h
      rcases List.mem_cons.mp h with rfl | hmem
      · simp
      · exact ih hmem
    · rcases hr : splitNL rest with _ | ⟨h1, t⟩
      · exact absurd hr (splitNL_ne_nil rest)
      · rw [show splitNL (c :: rest) = (c :: h1) :: t by simp [splitNL, hc, hr]] at h
        rcases List.mem_cons.mp h with rfl | hmem
        · intro hmem
          rcases List.mem_cons.mp hmem with rfl | hin
          · exact hc rfl
          · exact ih (hr ▸ List.mem_cons_self h1 t) hin
        · exact ih (hr ▸ List.mem_cons_of_mem h1 hmem)

theorem splitNL_append_nonl {a s : PyStr} (h : '\n' ∉ a) :
    splitNL (a ++ s) = (a ++ (splitNL s).headI) :: (splitNL s).tail := by
  induction a with
  | nil =>
    simp only [List.nil_append]
    exact (cons_headI_tail (splitNL_ne_nil s)).symm
  | cons x xs ih =>
    have hx : x ≠ '\n' := fun hh => h (hh ▸ List.mem_cons_self x xs)
    have ih' := ih fun hh => h (List.mem_cons_of_mem x hh)
    have hcons : ∀ (r : PyStr), splitNL (x :: r) = (x :: (splitNL r).headI) :: (splitNL r).tail := by
      intro r
      rcases hr : splitNL r with _ | ⟨h1, t⟩
      · exact absurd hr (splitNL_ne_nil r)
      · simp [splitNL, hx, hr]
    rw [List.cons_append, hcons, ih']
    simp

theorem splitNL_nonl {l : PyStr} (h : '\n' ∉ l) : splitNL l = [l] := by
  have := @splitNL_append_nonl l [] h
  simpa [splitNL] using this

theorem splitNL_joinNL {M : List PyStr} (hM : M ≠ []) (h : ∀ l ∈ M, '\n' ∉ l) :
    splitNL (joinNL M) = M := by
  induction M with
  | nil => exact absurd rfl hM
  | cons l M' ih =>
    cases M' with
    | nil =>
      show splitNL (joinNL [l]) = [l]
      exact splitNL_nonl (h l (List.mem_cons_self l []))
    | cons m ms =>
      rw [joinNL_cons (by simp),
        splitNL_append_nonl (h l (List.mem_cons_self l (m :: ms))),
        show splitNL ('\n' :: joinNL (m :: ms)) = [] :: splitNL (joinNL (m :: ms)) by
          simp [splitNL],
        ih (by simp) fun x hx => h x (List.mem_cons_of_mem l hx)]
      simp

/-! ### Behaviour of the run-collapsing scanner -/

theorem subRunGo_append_all {p : Char → Bool} {thr : Nat} {rep : PyStr} {x : PyStr}
    (hx : ∀ c ∈ x, p c) (a t : PyStr) :
    subRunGo p thr rep a (x ++ t) = subRunGo p thr rep (a ++ x) t := by
  induction x generalizing a with
  | nil => simp
  | cons c cs ih =>
    have hc : p c := hx c (List.mem_cons_self c cs)
    rw [List.cons_append, subRunGo, if_pos hc,
      ih (fun d hd => hx d (List.mem_cons_of_mem c hd))]
    simp

theorem subRun_cons_neg {p : Char → Bool} {thr : Nat} {rep : PyStr} {c : Char}
    (hc : ¬ p c = true) (s : PyStr) :
    subRun p thr rep (c :: s) = c :: subRun p thr rep s := by
  unfold subRun
  rw [subRunGo, if_neg hc]
  simp [subRunFlush]

/-- Splitting a maximal class run off the front of the input. -/
theorem subRun_run_split {p : Char → Bool} {thr : Nat} {rep : PyStr} {x t : PyStr}
    (hx : ∀ c ∈ x, p c) (ht : t = [] ∨ ∃ d t', t = d :: t' ∧ ¬ p d = true) :
    subRun p thr rep (x ++ t) = subRunFlush thr rep x ++ subRun p thr rep t := by
  unfold subRun
  rw [subRunGo_append_all hx [] t]
  rcases ht with rfl | ⟨d, t', rfl, hd⟩
  · simp [subRun, subRunGo, subRunFlush]
  · rw [subRunGo, if_neg hd, subRunGo, if_neg hd]
    simp [subRunFlush]

theorem subRun_append_nonp {p : Char → Bool} {thr : Nat} {rep : PyStr} {a : PyStr}
    (ha : ∀ c ∈ a, ¬ p c = true) (s : PyStr) :
    subRun p thr rep (a ++ s) = a ++ subRun p thr rep s := by
  induction a with
  | nil => simp
  | cons c cs ih =>
    rw [List.cons_append, subRun_cons_neg (ha c (List.mem_cons_self c cs)),
      ih fun d hd => ha d (List.mem_cons_of_mem c hd)]
    rfl

theorem eq_replicate_of_all_nl {x : PyStr} (hx : ∀ c ∈ x, isNl c = true) :
    x = List.replicate x.length '\n' := by
  induction x with
  | nil => rfl
  | cons c cs ih =>
    have hc : c = '\n' := by
      have := hx c (List.mem_cons_self c cs)
      simpa [isNl] using this
    subst hc
    rw [List.length_cons, List.replicate_succ]
    exact congrArg ('\n' :: ·) (ih fun d hd => hx d (List.mem_cons_of_mem _ hd))

/-- Every input decomposes at the head: empty, a non-class head, or a
maximal non-empty class run followed by a rest that starts outside the
class.  Used to drive strong induction over `subRun`. -/
theorem head_run_decomp (p : Char → Bool) (s : PyStr) :
    s = [] ∨ (∃ c rest, s = c :: rest ∧ ¬ p c = true) ∨
      (∃ x t, s = x ++ t ∧ x ≠ [] ∧ (∀ c ∈ x, p c) ∧
        (t = [] ∨ ∃ d t', t = d :: t' ∧ ¬ p d = true) ∧ t.length < s.length) := by
  cases s with
  | nil => exact Or.inl rfl
  | cons c rest =>
    by_cases hc : p c
    · refine Or.inr (Or.inr ⟨c :: rest.takeWhile p, rest.dropWhile p, ?_, by simp, ?_, ?_, ?_⟩)
      · rw [List.cons_append, List.takeWhile_append_dropWhile]
      · intro d hd
        rcases List.mem_cons.mp hd with rfl | hmem
        · exact hc
        · exact List.mem_takeWhile_imp hmem
      · rcases hdw : rest.dropWhile p with _ | ⟨d, t'⟩
        · exact Or.inl rfl
        · refine Or.inr ⟨d, t', rfl, ?_⟩
          have hh := List.head?_dropWhile_not p rest
          rw [hdw] at hh
          simpa using hh
      · have := dropWhile_length_le p rest
        simp only [List.length_cons]
        omega
    · exact Or.inr (Or.inl ⟨c, rest, rfl, hc⟩)

theorem subRun_nil {p : Char → Bool} {thr : Nat} {rep : PyStr} :
    subRun p thr rep [] = [] := by
  simp [subRun, subRunGo, subRunFlush]

/-- The second substitution of `_collapse_newlines` (`\n{4,}` to three
newlines) is dead code: the first substitution (`\n{2,}` to two newlines)
leaves no run of more than two newlines. -/
theorem collapse_newlines_second_sub_dead :
    ∀ (n : Nat) (s : PyStr), s.length ≤ n →
      subRun isNl 4 (pys "\n\n\n") (subRun isNl 2 (pys "\n\n") s) =
        subRun isNl 2 (pys "\n\n") s := by
  intro n
  induction n with
  | zero =>
    intro s hs
    have : s = [] := by
      cases s with
      | nil => rfl
      | cons c r => simp at hs
    subst this
    simp [subRun_nil]
  | succ n ih =>
    intro s hs
    rcases head_run_decomp isNl s with rfl | ⟨c, rest, hrest, hc⟩ | ⟨x, t, hxt, hx0, hx, ht, hlt⟩
    · simp [subRun_nil]
    · subst hrest
      rw [subRun_cons_neg hc, subRun_cons_neg hc,
        ih rest (by simp only [List.length_cons] at hs; omega)]
    · subst hxt
      rw [subRun_run_split hx ht]
      have hsub2t : subRun isNl 2 (pys "\n\n") t = [] ∨
          ∃ d t'', subRun isNl 2 (pys "\n\n") t = d :: t'' ∧ ¬ isNl d = true := by
        rcases ht with rfl | ⟨d, t', rfl, hd⟩
        · exact Or.inl subRun_nil
        · exact Or.inr ⟨d, subRun isNl 2 (pys "\n\n") t', subRun_cons_neg hd t', hd⟩
      set F := subRunFlush 2 (pys "\n\n") x with hF
      have hrep2 : pys "\n\n" = ['\n', '\n'] := rfl
      have hFnl : ∀ c ∈ F, isNl c = true := by
        intro c hc
        rw [hF] at hc
        unfold subRunFlush at hc
        split at hc
        · cases hc
        · split at hc
          · rw [hrep2] at hc
            have : c = '\n' := by
              rcases List.mem_cons.mp hc with rfl | hc2
              · rfl
              · rcases List.mem_cons.mp hc2 with rfl | hc3
                · rfl
                · cases hc3
            simp [this, isNl]
          · exact hx c hc
      have hFlen : F.length ≤ 2 := by
        rw [hF]
        unfold subRunFlush
        split
        · simp
        · split
          · rw [hrep2]; simp
          · omega
      have hFne : F ≠ [] := by
        rw [hF]
        unfold subRunFlush
        split
        · exact absurd (by assumption) hx0
        · split
          · rw [hrep2]; simp
          · assumption
      have hsp := @subRun_run_split isNl 4 (pys "\n\n\n") F (subRun isNl 2 (pys "\n\n") t)
        hFnl hsub2t
      rw [hsp, ih t (by omega)]
      have hid : subRunFlush 4 (pys "\n\n\n") F = F := by
        unfold subRunFlush
        rw [if_neg hFne, if_neg (by omega)]
      rw [hid]

/-- C3 (counterexample): the claim says a run of four or more consecutive
newlines is capped to exactly three newlines; on `"a\n\n\n\n\nb"` the code
instead collapses the five-newline run to two newlines, because the `\n{2,}`
substitution runs first and leaves nothing for the `\n{4,}` cap. -/
theorem claim_C3_counterexample :
    collapse_newlines (pys "a\n\n\n\n\nb") = pys "a\n\nb" ∧
    ¬ collapse_newlines (pys "a\n\n\n\n\nb") = pys "a\n\n\nb" := by
  exact ⟨by decide, by decide⟩

/-- C3 (amended): after per-line cleaning and rejoining, every run of two or
more newlines (at a maximal-run position: no newline directly before or
after) is collapsed to exactly two newlines — one blank line — with no
exception; the `\n{4,}` cap to three newlines is dead code, so
`_collapse_newlines` coincides with its first substitution alone. -/
theorem claim_C3_amended (a b : PyStr) (k : Nat) (ha : ∀ c ∈ a, ¬ isNl c = true)
    (hk : 2 ≤ k) (hb : b = [] ∨ ∃ d t', b = d :: t' ∧ ¬ isNl d = true) :
    collapse_newlines (a ++ (List.replicate k '\n' ++ b)) =
      a ++ (pys "\n\n" ++ collapse_newlines b) ∧
    ∀ s, collapse_newlines s = subRun isNl 2 (pys "\n\n") s := by
  constructor
  · have hrepl : ∀ c ∈ List.replicate k '\n', isNl c = true := by
      intro c hc
      rw [List.eq_of_mem_replicate hc]
      rfl
    have hrne : List.replicate k '\n' ≠ ([] : PyStr) := by
      intro hh
      have := congrArg List.length hh
      simp at this
      omega
    have hflush2 : subRunFlush 2 (pys "\n\n") (List.replicate k '\n') = pys "\n\n" := by
      unfold subRunFlush
      rw [if_neg hrne, if_pos (by simpa using hk)]
    have hsub2b : subRun isNl 2 (pys "\n\n") b = [] ∨
        ∃ d t'', subRun isNl 2 (pys "\n\n") b = d :: t'' ∧ ¬ isNl d = true := by
      rcases hb with rfl | ⟨d, t', rfl, hd⟩
      · exact Or.inl subRun_nil
      · exact Or.inr ⟨d, subRun isNl 2 (pys "\n\n") t', subRun_cons_neg hd t', hd⟩
    have hnn : ∀ c ∈ pys "\n\n", isNl c = true := by
      intro c hc
      have hrep2 : pys "\n\n" = ['\n', '\n'] := rfl
      rw [hrep2] at hc
      rcases List.mem_cons.mp hc with rfl | hc2
      · rfl
      · rcases List.mem_cons.mp hc2 with rfl | hc3
        · rfl
        · cases hc3
    have hflush4 : subRunFlush 4 (pys "\n\n\n") (pys "\n\n") = pys "\n\n" := by decide
    show subRun isNl 4 (pys "\n\n\n") (subRun isNl 2 (pys "\n\n")
        (a ++ (List.replicate k '\n' ++ b))) = _
    rw [subRun_append_nonp ha, subRun_run_split hrepl hb, hflush2,
      subRun_append_nonp ha,
      @subRun_run_split isNl 4 (pys "\n\n\n") (pys "\n\n") (subRun isNl 2 (pys "\n\n") b)
        hnn hsub2b, hflush4]
    rfl
  · intro s
    exact collapse_newlines_second_sub_dead s.length s le_rfl

/-- C3 (witness): the amended statement at `"a" ++ "\n"*5 ++ "b"`. -/
theorem claim_C3_witness :
    (2 ≤ 5 ∧ (∀ c ∈ pys "a", ¬ isNl c = true)) ∧
    collapse_newlines (pys "a" ++ (List.replicate 5 '\n' ++ pys "b")) =
      pys "a" ++ (pys "\n\n" ++ collapse_newlines (pys "b")) := by
  refine ⟨⟨by decide, by decide⟩, ?_⟩
  exact (claim_C3_amended (pys "a") (pys "b") 5 (by decide) (by decide)
    (Or.inr ⟨'b', [], rfl, by decide⟩)).1

/-! ### Digit facts for the numeric-label guard -/

theorem takeWhile_append_of_all {p : Char → Bool} {a : PyStr} (b : PyStr)
    (h : ∀ c ∈ a, p c) : (a ++ b).takeWhile p = a ++ b.takeWhile p := by
  induction a with
  | nil => simp
  | cons x xs ih =>
    have hx : p x := h x (List.mem_cons_self x xs)
    simp only [List.cons_append, List.takeWhile_cons_of_pos hx]
    rw [ih fun c hc => h c (List.mem_cons_of_mem x hc)]

theorem takeWhile_eq_self_of_all {p : Char → Bool} {a : PyStr} (h : ∀ c ∈ a, p c) :
    a.takeWhile p = a := by
  have := takeWhile_append_of_all [] h
  simpa using this

theorem dropWhile_eq_self_of_head {p : Char → Bool} {a : PyStr}
    (h : ∀ c ∈ a, ¬ p c = true) : a.dropWhile p = a := by
  cases a with
  | nil => rfl
  | cons c l => exact List.dropWhile_cons_of_neg (h c (List.mem_cons_self c l))

theorem digit_not_ws {c : Char} (h1 : '0' ≤ c) (h2 : c ≤ '9') : ¬ isPySpace c = true := by
  intro hws
  simp only [isPySpace, Bool.or_eq_true, decide_eq_true_eq, Bool.and_eq_true] at hws
  repeat' rcases hws with hws | hws
  all_goals first
    | exact absurd h1 (by decide)
    | exact absurd h2 (by decide)
    | exact absurd (le_trans hws.1 h2) (by decide)

theorem digit_not_colon {c : Char} (h1 : '0' ≤ c) (h2 : c ≤ '9') : ¬ isColonCh c = true := by
  intro hco
  simp only [isColonCh, Bool.or_eq_true, decide_eq_true_eq] at hco
  rcases hco with rfl | rfl
  · exact absurd h2 (by decide)
  · exact absurd h2 (by decide)

theorem digit_not_trim {c : Char} (h1 : '0' ≤ c) (h2 : c ≤ '9') : ¬ isTrimPunct c = true := by
  intro ht
  simp only [isTrimPunct, Bool.or_eq_true, decide_eq_true_eq] at ht
  repeat' rcases ht with ht | ht
  all_goals first
    | exact absurd h1 (by decide)
    | exact absurd h2 (by decide)
    | exact digit_not_ws h1 h2 ht

theorem digit_is_pydigit {c : Char} (h1 : '0' ≤ c) (h2 : c ≤ '9') : isPyDigit c = true := by
  simp only [isPyDigit, Bool.or_eq_true, Bool.and_eq_true, decide_eq_true_eq]
  exact Or.inl ⟨h1, h2⟩

theorem strip_eq_self_of_no_ws {s : PyStr} (h : ∀ c ∈ s, ¬ isPySpace c = true) :
    pyStrip s = s := by
  unfold pyStrip pyLstrip pyRstrip
  rw [dropWhile_eq_self_of_head h,
    dropWhile_eq_self_of_head fun c hc => h c (List.mem_reverse.mp hc),
    List.reverse_reverse]

/-- C7: a line that is a purely numeric label, a colon, and a (non-blank)
remainder is never classified as a header: the inline label-value rule fires
first, recognises the numeric label, and rejects the line outright, so no
later rule sees it. -/
theorem claim_C7 (d rest : PyStr) (col : Char) (hd : d ≠ [])
    (hdig : ∀ c ∈ d, '0' ≤ c ∧ c ≤ '9') (hcol : col = ':' ∨ col = '：')
    (hrest : pyStrip rest ≠ []) :
    looks_like_header (d ++ col :: rest) = none := by
  have hcolws : ¬ isPySpace col = true := by
    rcases hcol with rfl | rfl <;> decide
  have hcolcol : isColonCh col = true := by
    rcases hcol with rfl | rfl <;> decide
  have hex : ∃ c ∈ rest, ¬ isPySpace c = true := by
    by_contra hall
    push_neg at hall
    simp only [Bool.not_eq_true, ← Bool.not_eq_false] at hall
    apply hrest
    unfold pyStrip
    rw [pyLstrip_eq_nil_of_allWs fun c hc => by simpa using hall c hc]
    rfl
  obtain ⟨cw, hcw, hcwns⟩ := hex
  have hR : pyRstrip rest ≠ [] := by
    unfold pyRstrip
    intro hh
    rw [List.reverse_eq_nil_iff] at hh
    exact dropWhile_ne_nil_of_exists (List.mem_reverse.mpr hcw) hcwns hh
  set R := pyRstrip rest with hRdef
  obtain ⟨c0, d', rfl⟩ : ∃ c0 d', d = c0 :: d' := by
    cases d with
    | nil => exact absurd rfl hd
    | cons a t => exact ⟨a, t, rfl⟩
  have h0 := hdig c0 (List.mem_cons_self c0 d')
  have hstrip : pyStrip ((c0 :: d') ++ col :: rest) = (c0 :: d') ++ col :: R := by
    unfold pyStrip
    rw [show pyLstrip ((c0 :: d') ++ col :: rest) = (c0 :: d') ++ col :: rest by
      unfold pyLstrip
      rw [List.cons_append]
      exact List.dropWhile_cons_of_neg (digit_not_ws h0.1 h0.2)]
    rw [pyRstrip_append_of_nws (List.mem_cons_self col rest) hcolws,
      show (col :: rest : PyStr) = [col] ++ rest from rfl,
      pyRstrip_append_of_nws hcw hcwns]
    rfl
  have hpre : ((c0 :: d') ++ col :: R).takeWhile (fun c => !isColonCh c) = c0 :: d' := by
    rw [takeWhile_append_of_all (col :: R) fun c hc => by
      simp [digit_not_colon (hdig c hc).1 (hdig c hc).2]]
    rw [List.takeWhile_cons_of_neg (by simp [hcolcol])]
    simp
  have hinline : inlineSplit ((c0 :: d') ++ col :: R) = some (c0 :: d', R) := by
    unfold inlineSplit
    simp only [hpre]
    rw [show ((c0 :: d') ++ col :: R).drop (c0 :: d').length = col :: R from
      List.drop_left (c0 :: d') (col :: R)]
    simp [hR]
  have hnws : ∀ c ∈ c0 :: d', ¬ isPySpace c = true :=
    fun c hc => digit_not_ws (hdig c hc).1 (hdig c hc).2
  have hnorm : normalize_title (c0 :: d') = c0 :: d' := by
    show ((((pyStrip (c0 :: d')).dropWhile isTrimPunct).reverse.dropWhile
      isTrimPunct).reverse) = c0 :: d'
    rw [strip_eq_self_of_no_ws hnws,
      dropWhile_eq_self_of_head fun c hc => digit_not_trim (hdig c hc).1 (hdig c hc).2,
      dropWhile_eq_self_of_head fun c hc =>
        digit_not_trim (hdig c (List.mem_reverse.mp hc)).1 (hdig c (List.mem_reverse.mp hc)).2,
      List.reverse_reverse]
  have hnum : isNumericLabel (c0 :: d') = true := by
    unfold isNumericLabel
    rw [takeWhile_eq_self_of_all fun c hc => digit_is_pydigit (hdig c hc).1 (hdig c hc).2]
    simp
  simp only [looks_like_header]
  rw [hstrip]
  rw [if_neg (by simp)]
  by_cases hlen : 50 < ((c0 :: d') ++ col :: R).length
  · rw [if_pos hlen]
  · rw [if_neg hlen, hinline]
    simp only [hnorm, hnum, if_true]

/-- C7 (witness): the guard at the spec's own example `"10:00"`. -/
theorem claim_C7_witness :
    (pys "10" ≠ [] ∧ pyStrip (pys "00") ≠ []) ∧
    looks_like_header (pys "10:00") = none := by
  refine ⟨⟨by decide, by decide⟩, ?_⟩
  exact claim_C7 (pys "10") (pys "00") ':' (by decide)
    (by decide) (Or.inl rfl) (by decide)

/-! ### Order and position of header candidates -/

theorem withIdx_mem_bounds {i : Nat} {ls : List PyStr} {p : Nat × PyStr}
    (h : p ∈ withIdx i ls) : i ≤ p.1 ∧ p.1 < i + ls.length := by
  induction ls generalizing i with
  | nil => cases h
  | cons l rest ih =>
    rcases List.mem_cons.mp h with rfl | hmem
    · simp
    · have := ih hmem
      simp only [List.length_cons]
      omega

theorem withIdx_pairwise (i : Nat) (ls : List PyStr) :
    List.Pairwise (fun a b : Nat × PyStr => a.1 < b.1) (withIdx i ls) := by
  induction ls generalizing i with
  | nil => exact List.Pairwise.nil
  | cons l rest ih =>
    refine List.Pairwise.cons ?_ (ih (i + 1))
    intro p hp
    have := withIdx_mem_bounds hp
    simp only
    omega

theorem withIdx_mem_get {i : Nat} {ls : List PyStr} {p : Nat × PyStr}
    (h : p ∈ withIdx i ls) : ∃ hlt : p.1 - i < ls.length, ls.get ⟨p.1 - i, hlt⟩ = p.2 := by
  induction ls generalizing i with
  | nil => cases h
  | cons l rest ih =>
    rcases List.mem_cons.mp h with rfl | hmem
    · exact ⟨by simp, by simp⟩
    · obtain ⟨hlt, hget⟩ := ih hmem
      have hbd := withIdx_mem_bounds hmem
      have h1 : p.1 - i = (p.1 - (i + 1)) + 1 := by omega
      refine ⟨by simp only [List.length_cons]; omega, ?_⟩
      have h2 : ∀ (hh : p.1 - i < (l :: rest).length), (l :: rest).get ⟨p.1 - i, hh⟩ =
          rest.get ⟨p.1 - (i + 1), by simp only [List.length_cons] at hh; omega⟩ := by
        intro hh
        simp only [h1]
        rfl
      rw [h2, hget]

theorem pairwise_filterMap {α β : Type} {R : α → α → Prop} {S : β → β → Prop}
    {f : α → Option β} {l : List α} (hp : List.Pairwise R l)
    (hf : ∀ a b a' b', R a b → a' ∈ f a → b' ∈ f b → S a' b') :
    List.Pairwise S (l.filterMap f) := by
  induction l with
  | nil => exact List.Pairwise.nil
  | cons x xs ih =>
    have hx := List.pairwise_cons.mp hp
    rcases hfx : f x with _ | y
    · rw [List.filterMap_cons_none hfx]
      exact ih hx.2
    · rw [List.filterMap_cons_some hfx]
      refine List.Pairwise.cons ?_ (ih hx.2)
      intro z hz
      obtain ⟨b, hb, hzb⟩ := List.mem_filterMap.mp hz
      exact hf x b y z (hx.1 b hb) (by rw [hfx]; exact Option.mem_def.mpr rfl) hzb

theorem identify_headers_pairwise (lines : List PyStr) :
    List.Pairwise (fun a b : HeaderCandidate => a.index < b.index)
      (identify_headers lines) := by
  unfold identify_headers
  refine pairwise_filterMap (withIdx_pairwise 0 lines) ?_
  intro a b a' b' hab ha' hb'
  rcases hla : looks_like_header a.2 with _ | ra
  · rw [hla] at ha'; cases ha'
  · rcases hlb : looks_like_header b.2 with _ | rb
    · rw [hlb] at hb'; cases hb'
    · rw [hla] at ha'
      rw [hlb] at hb'
      injection ha' with ha2
      injection hb' with hb2
      rw [← ha2, ← hb2]
      exact hab

theorem identify_headers_index_lt {lines : List PyStr} {c : HeaderCandidate}
    (h : c ∈ identify_headers lines) : c.index < lines.length := by
  unfold identify_headers at h
  obtain ⟨p, hp, hpc⟩ := List.mem_filterMap.mp h
  rcases hl : looks_like_header p.2 with _ | r
  · rw [hl] at hpc; cases hpc
  · rw [hl] at hpc
    injection hpc with hpc2
    have := withIdx_mem_bounds hp
    rw [← hpc2]
    have h2 := this.2
    simp only [Nat.zero_add] at h2
    exact h2

theorem withEnds_mem {hs : List HeaderCandidate} {n : Nat} {ce : HeaderCandidate × Nat}
    (h : ce ∈ withEnds hs n) : ce.1 ∈ hs := by
  induction hs with
  | nil => cases h
  | cons c rest ih =>
    cases rest with
    | nil =>
      rcases List.mem_cons.mp h with rfl | hmem
      · exact List.mem_cons_self c []
      · cases hmem
    | cons c' rest' =>
      rcases List.mem_cons.mp h with rfl | hmem
      · exact List.mem_cons_self c (c' :: rest')
      · exact List.mem_cons_of_mem c (ih hmem)

/-- C9: when at least one header candidate is detected, every line index
strictly below the first candidate's index lies below every section span:
each span of `group_sections` draws its body lines from
`lines[c.index + 1 : e]` (see `sectionBodyLines`), and `i < c.index + 1`
holds for every candidate, so no section body is ever built from such a
line — leading preamble lines are attributed to no section. -/
theorem claim_C9 (lines : List PyStr) (c0 : HeaderCandidate) (i : Nat)
    (h0 : (identify_headers lines).head? = some c0) (hi : i < c0.index) :
    ∀ ce ∈ withEnds (identify_headers lines) lines.length, i < ce.1.index + 1 := by
  intro ce hce
  have hmem := withEnds_mem hce
  rcases hh : identify_headers lines with _ | ⟨c, rest⟩
  · rw [hh] at hmem; cases hmem
  · rw [hh] at h0
    simp only [List.head?_cons, Option.some.injEq] at h0
    subst h0
    rw [hh] at hmem
    have hpw := identify_headers_pairwise lines
    rw [hh] at hpw
    rcases List.mem_cons.mp hmem with heq | hmem'
    · rw [heq]; omega
    · have := (List.pairwise_cons.mp hpw).1 ce.1 hmem'
      omega

/-- C9 (witness): a concrete document with a preamble line before its only
header. -/
theorem claim_C9_witness :
    (identify_headers [pys "preamble", pys "【A】", pys "x"]).head? =
      some ⟨1, pys "A", [], mkRat 5 10⟩ ∧ 0 < 1 ∧
    ∀ ce ∈ withEnds (identify_headers [pys "preamble", pys "【A】", pys "x"])
      (([pys "preamble", pys "【A】", pys "x"] : List PyStr)).length, 0 < ce.1.index + 1 := by
  refine ⟨by decide, Nat.zero_lt_one, ?_⟩
  exact claim_C9 [pys "preamble", pys "【A】", pys "x"] ⟨1, pys "A", [], mkRat 5 10⟩ 0
    (by decide) Nat.zero_lt_one

/-! ### Characterisation of the best-field fold -/

/-- The maximum similarity of a title over all (field, synonym) pairs, with
the same iteration order and the same initial value `0.0` as the fold in
`find_best_field_match`. -/
def maxSimilarity (t : PyStr) : ℚ :=
  allSynonymPairs.foldl (fun m p => max m (similarity t p.2)) 0

theorem foldl_max_init_le (t : PyStr) (L : List (String × PyStr)) (a : ℚ) :
    a ≤ L.foldl (fun m p => max m (similarity t p.2)) a := by
  induction L generalizing a with
  | nil => exact le_refl a
  | cons p L' ih => exact le_trans (le_max_left a _) (ih (max a (similarity t p.2)))

theorem fbm_fold_spec (t : PyStr) (L : List (String × PyStr)) :
    ∀ acc : Option String × ℚ,
      (L.foldl (fun acc p =>
          if acc.2 < similarity t p.2 then (some p.1, similarity t p.2) else acc) acc).2 =
        L.foldl (fun m p => max m (similarity t p.2)) acc.2 ∧
      ((L.foldl (fun acc p =>
          if acc.2 < similarity t p.2 then (some p.1, similarity t p.2) else acc) acc).1 =
            acc.1 ∧
        (L.foldl (fun acc p =>
          if acc.2 < similarity t p.2 then (some p.1, similarity t p.2) else acc) acc).2 =
            acc.2 ∨
       ∃ p ∈ L,
        (L.foldl (fun acc p =>
          if acc.2 < similarity t p.2 then (some p.1, similarity t p.2) else acc) acc).1 =
            some p.1 ∧
        similarity t p.2 =
          (L.foldl (fun acc p =>
            if acc.2 < similarity t p.2 then (some p.1, similarity t p.2) else acc) acc).2) := by
  induction L with
  | nil => exact fun acc => ⟨rfl, Or.inl ⟨rfl, rfl⟩⟩
  | cons p L' ih =>
    intro acc
    by_cases hup : acc.2 < similarity t p.2
    · have hstep : (if acc.2 < similarity t p.2 then (some p.1, similarity t p.2) else acc) =
          (some p.1, similarity t p.2) := if_pos hup
      have hmax : max acc.2 (similarity t p.2) = similarity t p.2 :=
        max_eq_right (le_of_lt hup)
      obtain ⟨ihA, ihB⟩ := ih (some p.1, similarity t p.2)
      constructor
      · rw [List.foldl_cons, List.foldl_cons, hstep, hmax]
        exact ihA
      · rcases ihB with ⟨h1, h2⟩ | ⟨q, hq, h1, h2⟩
        · refine Or.inr ⟨p, List.mem_cons_self p L', ?_, ?_⟩
          · rw [List.foldl_cons, hstep]
            exact h1
          · rw [List.foldl_cons, hstep, h2]
        · refine Or.inr ⟨q, List.mem_cons_of_mem p hq, ?_, ?_⟩
          · rw [List.foldl_cons, hstep]
            exact h1
          · rw [List.foldl_cons, hstep]
            exact h2
    · have hstep : (if acc.2 < similarity t p.2 then (some p.1, similarity t p.2) else acc) =
          acc := if_neg hup
      have hmax : max acc.2 (similarity t p.2) = acc.2 :=
        max_eq_left (le_of_not_lt hup)
      obtain ⟨ihA, ihB⟩ := ih acc
      constructor
      · rw [List.foldl_cons, List.foldl_cons, hstep, hmax]
        exact ihA
      · rcases ihB with ⟨h1, h2⟩ | ⟨q, hq, h1, h2⟩
        · refine Or.inl ⟨?_, ?_⟩
          · rw [List.foldl_cons, hstep]; exact h1
          · rw [List.foldl_cons, hstep]; exact h2
        · refine Or.inr ⟨q, List.mem_cons_of_mem p hq, ?_, ?_⟩
          · rw [List.foldl_cons, hstep]; exact h1
          · rw [List.foldl_cons, hstep]; exact h2

/-- C5: `find_best_field_match` returns a canonical field exactly when the
maximum similarity ratio over all (field, synonym) pairs reaches the 0.55
threshold (`0.55 = mkRat 11 20`, and the comparison in the code is `>=`);
the returned field always owns a synonym realising that maximum.  In
particular a title whose best ratio is exactly 0.55 resolves to the owning
field — no rational of the form `2*M/(len(a)+len(b))` with these synonym
lengths equals 0.55 exactly, so that boundary case is vacuous, and the
`none` direction of the equivalence carries the content. -/
theorem claim_C5 (t : PyStr) :
    (find_best_field_match t = none ↔ maxSimilarity t < mkRat 11 20) ∧
    (∀ f, find_best_field_match t = some f →
      mkRat 11 20 ≤ maxSimilarity t ∧
      ∃ p ∈ allSynonymPairs, p.1 = f ∧ similarity t p.2 = maxSimilarity t) := by
  obtain ⟨hA, hB⟩ := fbm_fold_spec t allSynonymPairs ((none : Option String), (0 : ℚ))
  set r := allSynonymPairs.foldl (fun acc p =>
    if acc.2 < similarity t p.2 then (some p.1, similarity t p.2) else acc)
    ((none : Option String), (0 : ℚ)) with hr
  have hfb : find_best_field_match t = if mkRat 11 20 ≤ r.2 then r.1 else none := rfl
  have hmaxeq : r.2 = maxSimilarity t := hA
  have hthr : (0 : ℚ) < mkRat 11 20 := by decide
  constructor
  · constructor
    · intro hnone
      rw [hfb] at hnone
      by_cases hc : mkRat 11 20 ≤ r.2
      · rw [if_pos hc] at hnone
        rcases hB with ⟨h1, h2⟩ | ⟨q, hq, h1, h2⟩
        · rw [hnone] at h1
          rw [← hmaxeq, h2]
          simpa using hthr
        · rw [h1] at hnone
          cases hnone
      · rw [← hmaxeq]
        exact lt_of_not_le hc
    · intro hlt
      rw [hfb, if_neg (not_le_of_lt (hmaxeq ▸ hlt))]
  · intro f hf
    rw [hfb] at hf
    by_cases hc : mkRat 11 20 ≤ r.2
    · rw [if_pos hc] at hf
      refine ⟨hmaxeq ▸ hc, ?_⟩
      rcases hB with ⟨h1, h2⟩ | ⟨q, hq, h1, h2⟩
      · rw [hf] at h1
        cases h1
      · rw [h1] at hf
        injection hf with hf2
        exact ⟨q, hq, hf2, by rw [h2, hmaxeq]⟩
    · rw [if_neg hc] at hf
      cases hf

/-- C5 (witness): the exact-synonym title resolves to its field and the
maximum ratio (1.0) clears the threshold. -/
theorem claim_C5_witness :
    find_best_field_match (pys "職種") = some "job_title" ∧
    mkRat 11 20 ≤ maxSimilarity (pys "職種") := by
  have h := (claim_C5 (pys "職種")).2 "job_title" (by decide)
  exact ⟨by decide, h.1⟩

/-- C4 (counterexample): the seed guesses of step 1 are non-empty and not
bracket artifacts, yet the section-refinement step replaces the job-title
seed `"A"` by the section body `"NewTitle"` — an earlier non-empty value is
overridden by a later step, contradicting the claim. -/
theorem claim_C4_counterexample :
    (seedFields (nonEmptyLines [pys "A", pys "B"])).1 = pys "A" ∧
    pys "A" ≠ [] ∧ startsBracket (pys "A") = false ∧
    (guess_primary_fields [pys "A", pys "B"] [(pys "職種", pys "NewTitle")]).1 =
      pys "NewTitle" ∧
    pys "NewTitle" ≠ pys "A" := by
  exact ⟨by decide, by decide, by decide, by decide, by decide⟩

/-- C4 (amended): only the keyword scan (step 3), the suffix scan (step 4)
and the title rescue (step 5) are guarded by an unset check — a non-empty
salary, company or (non-bracket) title entering those steps survives to the
result unchanged.  The section-refinement step (step 2) is unguarded and
replaces even non-empty seeds. -/
theorem claim_C4_amended (lines : List PyStr) (sections : List (PyStr × PyStr)) :
    ((refineFromSections sections ((seedFields (nonEmptyLines lines)).1,
        (seedFields (nonEmptyLines lines)).2, [])).2.2 ≠ [] →
      (guess_primary_fields lines sections).2.2 =
        (refineFromSections sections ((seedFields (nonEmptyLines lines)).1,
          (seedFields (nonEmptyLines lines)).2, [])).2.2) ∧
    ((refineFromSections sections ((seedFields (nonEmptyLines lines)).1,
        (seedFields (nonEmptyLines lines)).2, [])).2.1 ≠ [] →
      (guess_primary_fields lines sections).2.1 =
        (refineFromSections sections ((seedFields (nonEmptyLines lines)).1,
          (seedFields (nonEmptyLines lines)).2, [])).2.1) ∧
    ((refineFromSections sections ((seedFields (nonEmptyLines lines)).1,
        (seedFields (nonEmptyLines lines)).2, [])).1 ≠ [] →
      startsBracket (refineFromSections sections ((seedFields (nonEmptyLines lines)).1,
        (seedFields (nonEmptyLines lines)).2, [])).1 = false →
      (guess_primary_fields lines sections).1 =
        (refineFromSections sections ((seedFields (nonEmptyLines lines)).1,
          (seedFields (nonEmptyLines lines)).2, [])).1) := by
  refine ⟨fun h => ?_, fun h => ?_, fun h hb => ?_⟩
  · show (if (refineFromSections sections ((seedFields (nonEmptyLines lines)).1,
        (seedFields (nonEmptyLines lines)).2, [])).2.2 = [] then _ else _) = _
    rw [if_neg h]
  · show (if (refineFromSections sections ((seedFields (nonEmptyLines lines)).1,
        (seedFields (nonEmptyLines lines)).2, [])).2.1 = [] then _ else _) = _
    rw [if_neg h]
  · show (if (refineFromSections sections ((seedFields (nonEmptyLines lines)).1,
        (seedFields (nonEmptyLines lines)).2, [])).1 = [] ∨
        startsBracket (refineFromSections sections ((seedFields (nonEmptyLines lines)).1,
          (seedFields (nonEmptyLines lines)).2, [])).1 = true then _ else _) = _
    rw [if_neg (by simp [h, hb])]

/-- C4 (witness): all three guarded steps leave the refined values intact on
a document whose refined title, company and salary are all non-empty. -/
theorem claim_C4_witness :
    (guess_primary_fields [pys "T", pys "C"] [(pys "給与", pys "¥100")]).2.2 =
      (refineFromSections [(pys "給与", pys "¥100")]
        ((seedFields (nonEmptyLines [pys "T", pys "C"])).1,
         (seedFields (nonEmptyLines [pys "T", pys "C"])).2, [])).2.2 ∧
    (guess_primary_fields [pys "T", pys "C"] [(pys "給与", pys "¥100")]).2.1 =
      (refineFromSections [(pys "給与", pys "¥100")]
        ((seedFields (nonEmptyLines [pys "T", pys "C"])).1,
         (seedFields (nonEmptyLines [pys "T", pys "C"])).2, [])).2.1 ∧
    (guess_primary_fields [pys "T", pys "C"] [(pys "給与", pys "¥100")]).1 =
      (refineFromSections [(pys "給与", pys "¥100")]
        ((seedFields (nonEmptyLines [pys "T", pys "C"])).1,
         (seedFields (nonEmptyLines [pys "T", pys "C"])).2, [])).1 := by
  have h := claim_C4_amended [pys "T", pys "C"] [(pys "給与", pys "¥100")]
  exact ⟨h.1 (by decide), h.2.1 (by decide), h.2.2 (by decide) (by decide)⟩

/-! ### Dictionary lemmas -/

theorem dictLookup_cons (k0 v0 : PyStr) (rest : List (PyStr × PyStr)) (k' : PyStr) :
    dictLookup ((k0, v0) :: rest) k' =
      if k0 = k' then some v0 else dictLookup rest k' := by
  unfold dictLookup
  by_cases h : k0 = k'
  · rw [List.find?_cons_of_pos _ (by simpa using h), if_pos h]
    rfl
  · rw [List.find?_cons_of_neg _ (by simpa using h), if_neg h]

theorem dictLookup_map_replace (k v k' : PyStr) :
    ∀ d : List (PyStr × PyStr),
      dictLookup (d.map fun p => if p.1 = k then (k, v) else p) k' =
        if k' = k then (dictLookup d k).map (fun _ => v) else dictLookup d k' := by
  intro d
  induction d with
  | nil =>
    by_cases hk : k' = k <;> simp [dictLookup, hk]
  | cons p rest ih =>
    obtain ⟨k0, v0⟩ := p
    simp only [List.map_cons]
    by_cases h0 : k0 = k
    · rw [show (if (k0, v0).1 = k then (k, v) else (k0, v0)) = (k, v) from if_pos h0,
        dictLookup_cons, dictLookup_cons, dictLookup_cons]
      by_cases hk : k = k'
      · rw [if_pos hk, if_pos hk.symm, if_pos h0]
        rfl
      · rw [if_neg hk, if_neg (fun hh : k' = k => hk hh.symm), ih,
          if_neg (fun hh : k' = k => hk hh.symm),
          if_neg (fun hh : k0 = k' => hk (h0 ▸ hh : k = k'))]
    · rw [show (if (k0, v0).1 = k then (k, v) else (k0, v0)) = (k0, v0) from if_neg h0,
        dictLookup_cons]
      by_cases hk0 : k0 = k'
      · rw [if_pos hk0, if_neg (fun hh : k' = k => h0 (hk0.trans hh)), dictLookup_cons,
          if_pos hk0]
      · rw [if_neg hk0, ih, dictLookup_cons, dictLookup_cons, if_neg h0, if_neg hk0]

theorem dictLookup_append_single (d : List (PyStr × PyStr)) (k v k' : PyStr) :
    dictLookup (d ++ [(k, v)]) k' =
      match dictLookup d k' with
      | some w => some w
      | none => if k' = k then some v else none := by
  induction d with
  | nil =>
    simp only [List.nil_append]
    rw [dictLookup_cons]
    by_cases hk : k = k'
    · rw [if_pos hk]
      simp [dictLookup, hk.symm]
    · rw [if_neg hk]
      simp only [dictLookup, List.find?_nil, Option.map_none']
      rw [if_neg (fun hh : k' = k => hk hh.symm)]
  | cons p rest ih =>
    obtain ⟨k0, v0⟩ := p
    rw [List.cons_append, dictLookup_cons, dictLookup_cons]
    by_cases hk : k0 = k'
    · rw [if_pos hk, if_pos hk]
    · rw [if_neg hk, if_neg hk, ih]

theorem dictAny_iff_lookup (d : List (PyStr × PyStr)) (k : PyStr) :
    (d.any fun p => p.1 = k) = true ↔ (dictLookup d k).isSome := by
  induction d with
  | nil => simp [dictLookup]
  | cons p rest ih =>
    obtain ⟨k0, v0⟩ := p
    rw [dictLookup_cons]
    by_cases hk : k0 = k
    · simp [hk]
    · simp only [List.any_cons, decide_eq_true_eq, Bool.or_eq_true]
      rw [if_neg hk, ← ih]
      simp [hk]

theorem dictLookup_insert (d : List (PyStr × PyStr)) (k v k' : PyStr) :
    dictLookup (dictInsert d k v) k' =
      if k' = k then some v else dictLookup d k' := by
  unfold dictInsert
  by_cases hany : (d.any fun p => p.1 = k) = true
  · rw [if_pos hany, dictLookup_map_replace]
    by_cases hk : k' = k
    · rw [if_pos hk, if_pos hk]
      have := (dictAny_iff_lookup d k).mp hany
      rcases hl : dictLookup d k with _ | w
      · rw [hl] at this; cases this
      · rfl
    · rw [if_neg hk, if_neg hk]
  · rw [if_neg hany, dictLookup_append_single]
    by_cases hk : k' = k
    · subst hk
      have hno : ¬ (dictLookup d k').isSome := fun hh => hany ((dictAny_iff_lookup d k').mpr hh)
      rcases hl : dictLookup d k' with _ | w
      · simp
      · rw [hl] at hno; simp at hno
    · rw [if_neg hk]
      rcases hl : dictLookup d k' with _ | w <;> simp [hk]

theorem foldl_insert_lookup {α : Type} (g : α → PyStr) (h : α → PyStr) :
    ∀ (ps : List α) (d0 : List (PyStr × PyStr)) (k : PyStr),
      (ps.map g).Nodup →
      dictLookup (ps.foldl (fun acc x => dictInsert acc (g x) (h x)) d0) k =
        match ps.find? (fun x => g x = k) with
        | some x => some (h x)
        | none => dictLookup d0 k := by
  intro ps
  induction ps with
  | nil => intro d0 k _; rfl
  | cons x rest ih =>
    intro d0 k hnd
    have hnd' : (rest.map g).Nodup := (List.nodup_cons.mp (by simpa using hnd)).2
    have hnotin : g x ∉ rest.map g := (List.nodup_cons.mp (by simpa using hnd)).1
    rw [List.foldl_cons, ih (dictInsert d0 (g x) (h x)) k hnd']
    by_cases hk : g x = k
    · subst hk
      have hfind : rest.find? (fun y => g y = g x) = none := by
        rw [List.find?_eq_none]
        intro y hy hgy
        exact hnotin (by
          simp only [decide_eq_true_eq] at hgy
          rw [← hgy]
          exact List.mem_map_of_mem g hy)
      rw [hfind, show (x :: rest).find? (fun y => g y = g x) = some x by
        simp [List.find?]]
      rw [dictLookup_insert, if_pos rfl]
    · rw [show (x :: rest).find? (fun y => g y = k) = rest.find? (fun y => g y = k) by
        simp [List.find?, hk]]
      rcases hf : rest.find? (fun y => g y = k) with _ | y
      · rw [dictLookup_insert, if_neg (fun hh => hk hh.symm)]
      · rfl

theorem dictInsert_keys_nodup {d : List (PyStr × PyStr)} (hnd : (d.map fun p => p.1).Nodup)
    (k v : PyStr) : ((dictInsert d k v).map fun p => p.1).Nodup := by
  unfold dictInsert
  by_cases hany : (d.any fun p => p.1 = k) = true
  · rw [if_pos hany]
    have hkeys : ((d.map fun p => if p.1 = k then (k, v) else p).map fun p => p.1) =
        d.map fun p => p.1 := by
      rw [List.map_map]
      apply List.map_congr_left
      intro p _
      by_cases hp : p.1 = k
      · simp [hp]
      · simp [hp]
    rw [hkeys]
    exact hnd
  · rw [if_neg hany, List.map_append]
    rw [List.nodup_append]
    refine ⟨hnd, by simp, ?_⟩
    intro a ha hb
    simp only [List.map_cons, List.map_nil, List.mem_singleton] at hb
    subst hb
    obtain ⟨p, hp, hpk⟩ := List.mem_map.mp ha
    exact hany (List.any_eq_true.mpr ⟨p, hp, by simp [hpk]⟩)

theorem foldl_insert_nodup {α : Type} (g : α → PyStr) (h : α → PyStr) :
    ∀ (ps : List α) (d0 : List (PyStr × PyStr)), ((d0.map fun p => p.1).Nodup) →
      (((ps.foldl (fun acc x => dictInsert acc (g x) (h x)) d0)).map fun p => p.1).Nodup := by
  intro ps
  induction ps with
  | nil => exact fun d0 hd => hd
  | cons x rest ih =>
    intro d0 hd
    rw [List.foldl_cons]
    exact ih (dictInsert d0 (g x) (h x)) (dictInsert_keys_nodup hd (g x) (h x))

theorem group_sections_keys_nodup (lines : List PyStr) :
    ((group_sections lines).map fun p => p.1).Nodup := by
  unfold group_sections
  by_cases hh : identify_headers lines = []
  · simp only [hh, if_pos rfl]
    simp
  · simp only [hh, if_neg hh]
    exact foldl_insert_nodup (fun ce : HeaderCandidate × Nat => ce.1.title)
      (fun ce => pyStrip (joinNL (sectionBodyLines lines ce.1 ce.2)))
      (withEnds (identify_headers lines) lines.length) [] (by simp)

theorem template_values_empty {k v0 : PyStr}
    (h : dictLookup DEFAULT_SECTION_TEMPLATE k = some v0) : v0 = [] := by
  unfold dictLookup at h
  rcases hf : DEFAULT_SECTION_TEMPLATE.find? fun p => p.1 = k with _ | p
  · rw [hf] at h; cases h
  · rw [hf] at h
    injection h with h2
    have hmem := List.mem_of_find?_eq_some hf
    have hall : ∀ q ∈ DEFAULT_SECTION_TEMPLATE, q.2 = ([] : PyStr) := by decide
    rw [← h2]
    exact hall p hmem

/-- C8: the sections mapping of `parse_job` always answers every key of the
default template: a key whose title was detected keeps the detected body
(precedence over the template's empty default), and a template key with no
detected section answers the empty string.  The second conjunct states the
precedence for every detected key, template or not. -/
theorem claim_C8 (raw : PyStr) :
    (∀ k v0, dictLookup DEFAULT_SECTION_TEMPLATE k = some v0 →
      dictLookup (parse_job raw).sections k =
        some ((dictLookup (group_sections (splitNL (clean_text raw))) k).getD [])) ∧
    (∀ k v, dictLookup (group_sections (splitNL (clean_text raw))) k = some v →
      dictLookup (parse_job raw).sections k = some v) := by
  have hsec : (parse_job raw).sections =
      (group_sections (splitNL (clean_text raw))).foldl
        (fun acc hb => dictInsert acc hb.1 hb.2) DEFAULT_SECTION_TEMPLATE := rfl
  have hnd : ((group_sections (splitNL (clean_text raw))).map fun p => p.1).Nodup :=
    group_sections_keys_nodup (splitNL (clean_text raw))
  have hfold := fun k => foldl_insert_lookup (fun p : PyStr × PyStr => p.1)
    (fun p => p.2) (group_sections (splitNL (clean_text raw))) DEFAULT_SECTION_TEMPLATE k hnd
  have hlk : ∀ k, dictLookup (group_sections (splitNL (clean_text raw))) k =
      ((group_sections (splitNL (clean_text raw))).find? fun x => x.1 = k).map
        fun p => p.2 := fun k => rfl
  constructor
  · intro k v0 htemp
    rw [hsec, hfold k, hlk k]
    rcases hf : (group_sections (splitNL (clean_text raw))).find? fun x => x.1 = k with _ | x
    · rw [hf]
      simp [htemp, template_values_empty htemp]
    · rw [hf]
      simp
  · intro k v hdet
    rw [hlk k] at hdet
    rw [hsec, hfold k]
    rcases hf : (group_sections (splitNL (clean_text raw))).find? fun x => x.1 = k with _ | x
    · rw [hf] at hdet
      simp at hdet
    · rw [hf] at hdet
      rw [hf]
      simp only [Option.map_some', Option.some.injEq] at hdet
      exact congrArg some hdet

set_option maxHeartbeats 2000000 in
/-- C8 (witness): a detected section overrides its template key and an
undetected template key stays empty, on a concrete document. -/
theorem claim_C8_witness :
    dictLookup DEFAULT_SECTION_TEMPLATE (pys "勤務地") = some [] ∧
    dictLookup (group_sections (splitNL (clean_text (pys "【勤務地】\n東京")))) (pys "勤務地") =
      some (pys "東京") ∧
    dictLookup (parse_job (pys "【勤務地】\n東京")).sections (pys "勤務地") =
      some (pys "東京") ∧
    dictLookup (parse_job (pys "【勤務地】\n東京")).sections (pys "給与詳細") = some [] := by
  refine ⟨by decide, by decide, ?_, ?_⟩
  · exact (claim_C8 (pys "【勤務地】\n東京")).2 (pys "勤務地") (pys "東京") (by decide)
  · have h := (claim_C8 (pys "【勤務地】\n東京")).1 (pys "給与詳細") [] (by decide)
    rw [h]
    decide

/-!
Explicit-state model for the frame claim: the two module-level tables are
gathered in a `ModuleState` record and threaded through a state-passing
variant of `parse_job`.  Every Python statement that reads
`CANONICAL_FIELDS` or `DEFAULT_SECTION_TEMPLATE` reads the state component;
`_merge_sections` starts from `{**DEFAULT_SECTION_TEMPLATE}` — a copy — so
its dictionary writes go to a local value and the state is returned
untouched, matching a source that contains no assignment to either table.
-/

structure ModuleState where
  template : List (PyStr × PyStr)
  canonical : List (String × List PyStr)
deriving DecidableEq

def initState : ModuleState := ⟨DEFAULT_SECTION_TEMPLATE, CANONICAL_FIELDS⟩

/-- `find_best_field_match` reading its synonym table from an explicit
argument. -/
def find_best_field_matchW (can : List (String × List PyStr)) (title : PyStr) :
    Option String :=
  let r := (can.flatMap fun fs => fs.2.map fun syn => (fs.1, syn)).foldl
    (fun acc p => if acc.2 < similarity title p.2 then (some p.1, similarity title p.2)
      else acc)
    ((none : Option String), (0 : ℚ))
  if mkRat 11 20 ≤ r.2 then r.1 else none

/-- State-threaded `find_best_field_match`: reads the canonical table, never
writes. -/
def find_best_field_matchSt (st : ModuleState) (title : PyStr) :
    Option String × ModuleState :=
  (find_best_field_matchW st.canonical title, st)

/-- State-threaded section-refinement loop of `_guess_primary_fields`. -/
def refineFromSectionsSt (st : ModuleState) (secs : List (PyStr × PyStr))
    (acc : PyStr × PyStr × PyStr) : (PyStr × PyStr × PyStr) × ModuleState :=
  secs.foldl
    (fun p hb =>
      let fm := find_best_field_matchSt p.2 hb.1
      (match fm.1 with
       | some f =>
         if f = "job_title" ∧ hb.2 ≠ [] then (firstLine hb.2, p.1.2.1, p.1.2.2)
         else if f = "company" ∧ hb.2 ≠ [] then (p.1.1, firstLine hb.2, p.1.2.2)
         else if f = "salary" ∧ hb.2 ≠ [] then (p.1.1, p.1.2.1, hb.2)
         else p.1
       | none => p.1, fm.2))
    (acc, st)

/-- State-threaded `_guess_primary_fields`. -/
def guess_primary_fieldsSt (st : ModuleState) (lines : List PyStr)
    (sections : List (PyStr × PyStr)) : (PyStr × PyStr × PyStr) × ModuleState :=
  let ne := nonEmptyLines lines
  let seeds := seedFields ne
  let r := refineFromSectionsSt st sections (seeds.1, seeds.2, [])
  let salary :=
    if r.1.2.2 = [] then
      match ne.find? (fun l => salaryKeywords.any fun k => isSubstr k l) with
      | some l => l
      | none => r.1.2.2
    else r.1.2.2
  let company :=
    if r.1.2.1 = [] then
      match ne.find? (fun l => companyKeywords.any fun k => isSubstr k l) with
      | some l => l
      | none => r.1.2.1
    else r.1.2.1
  let job_title :=
    if r.1.1 = [] ∨ startsBracket r.1.1 then
      match sections.find? (fun hb => pyStrip hb.2 ≠ []) with
      | some hb => firstLine hb.2
      | none => r.1.1
    else r.1.1
  ((job_title, company, salary), r.2)

/-- State-threaded `_merge_sections`: the fold starts from a copy of the
state's template, so the state is returned unchanged. -/
def merge_sectionsSt (st : ModuleState) (detected : List (PyStr × PyStr)) :
    List (PyStr × PyStr) × ModuleState :=
  (detected.foldl (fun acc hb => dictInsert acc hb.1 hb.2) st.template, st)

/-- State-threaded `parse_job`. -/
def parse_jobSt (st : ModuleState) (raw : PyStr) : ParsedRecord × ModuleState :=
  let cleaned := clean_text raw
  let lines := splitNL cleaned
  let detected := group_sections lines
  let g := guess_primary_fieldsSt st lines detected
  let m := merge_sectionsSt g.2 detected
  ({ job_title := g.1.1, company := g.1.2.1, salary := g.1.2.2, sections := m.1 }, m.2)

theorem refineFromSectionsSt_state (st : ModuleState) (secs : List (PyStr × PyStr)) :
    ∀ acc, refineFromSectionsSt st secs acc =
      ((refineFromSectionsSt st secs acc).1, st) := by
  unfold refineFromSectionsSt
  induction secs with
  | nil => intro acc; rfl
  | cons hb rest ih =>
    intro acc
    rw [List.foldl_cons]
    exact ih _

theorem parse_jobSt_state (st : ModuleState) (raw : PyStr) :
    (parse_jobSt st raw).2 = st := by
  unfold parse_jobSt merge_sectionsSt guess_primary_fieldsSt
  simp only
  have := congrArg Prod.snd (refineFromSectionsSt_state st
    (group_sections (splitNL (clean_text raw)))
    ((seedFields (nonEmptyLines (splitNL (clean_text raw)))).1,
     (seedFields (nonEmptyLines (splitNL (clean_text raw)))).2, []))
  simpa using this

theorem refineFromSectionsSt_init (secs : List (PyStr × PyStr)) :
    ∀ acc : PyStr × PyStr × PyStr,
      refineFromSectionsSt initState secs acc =
        (refineFromSections secs acc, initState) := by
  induction secs with
  | nil => intro acc; rfl
  | cons hb rest ih =>
    intro acc
    exact ih (refineFromSections [hb] acc)

theorem guess_primary_fieldsSt_init (lines : List PyStr) (secs : List (PyStr × PyStr)) :
    guess_primary_fieldsSt initState lines secs =
      (guess_primary_fields lines secs, initState) := by
  unfold guess_primary_fieldsSt guess_primary_fields
  simp only [refineFromSectionsSt_init]

theorem parse_jobSt_init (raw : PyStr) :
    parse_jobSt initState raw = (parse_job raw, initState) := by
  unfold parse_jobSt parse_job merge_sectionsSt merge_sections
  simp only [guess_primary_fieldsSt_init]
  rfl

/-- C10: `parse_job` never mutates the module tables and is deterministic.
In the state-threaded model the returned state equals the input state, so
after a call at the initial state the template and the canonical table are
unchanged (and the template still maps each key to the empty string); a
second call on the same input returns the same record, and the threaded
model at the initial state agrees with the plain `parse_job`. -/
theorem claim_C10 (raw : PyStr) :
    (∀ st, (parse_jobSt st raw).2 = st) ∧
    ((parse_jobSt initState raw).2).template = DEFAULT_SECTION_TEMPLATE ∧
    ((parse_jobSt initState raw).2).canonical = CANONICAL_FIELDS ∧
    DEFAULT_SECTION_TEMPLATE.all (fun kv => kv.2 = []) = true ∧
    (parse_jobSt ((parse_jobSt initState raw).2) raw).1 = (parse_jobSt initState raw).1 ∧
    (parse_jobSt initState raw).1 = parse_job raw := by
  refine ⟨fun st => parse_jobSt_state st raw, ?_, ?_, by decide, ?_, ?_⟩
  · rw [parse_jobSt_state initState raw]
    rfl
  · rw [parse_jobSt_state initState raw]
    rfl
  · rw [parse_jobSt_state initState raw]
  · rw [parse_jobSt_init raw]

/-! ### Whitespace-only input degrades to the empty cleaned text -/

theorem unescape_cons_of_ne {c : Char} (hc : ¬ c = '&') (rest : PyStr) :
    unescape (c :: rest) = c :: unescape rest := by
  show unescapeGo 0 (c :: rest) = c :: unescapeGo 0 rest
  rw [unescapeGo, if_neg hc]

theorem unescape_id_of_no_amp {s : PyStr} (h : '&' ∉ s) : unescape s = s := by
  induction s with
  | nil => rfl
  | cons c rest ih =>
    have hc : ¬ c = '&' := fun hh => h (hh ▸ List.mem_cons_self c rest)
    rw [unescape_cons_of_ne hc, ih fun hh => h (List.mem_cons_of_mem c hh)]

theorem replaceStr_id_of_no_head {p0 : Char} {pat rep s : PyStr}
    (hpat : pat.head? = some p0) (h : p0 ∉ s) : replaceStr pat rep s = s := by
  induction s with
  | nil => rfl
  | cons c rest ih =>
    have hc : ¬ c = p0 := fun hh => h (hh ▸ List.mem_cons_self c rest)
    have hns : ¬ (pat ≠ [] ∧ startsList pat (c :: rest) = true) := by
      rintro ⟨hne, hst⟩
      cases pat with
      | nil => exact hne rfl
      | cons q qs =>
        simp only [List.head?_cons, Option.some.injEq] at hpat
        unfold startsList at hst
        simp only [List.length_cons, List.take_succ_cons, List.cons.injEq,
          decide_eq_true_eq] at hst
        exact hc (by rw [hst.1, hpat])
    show replaceStrGo pat rep 0 (c :: rest) = c :: rest
    rw [replaceStrGo, if_neg (by simpa using hns)]
    exact congrArg (c :: ·) (ih fun hh => h (List.mem_cons_of_mem c hh))

theorem replaceStrGo_chars {pat rep : PyStr} {c : Char} :
    ∀ (k : Nat) (s : PyStr), c ∈ replaceStrGo pat rep k s → c ∈ rep ∨ c ∈ s := by
  intro k s
  induction s generalizing k with
  | nil =>
    intro h
    cases k <;> cases h
  | cons x rest ih =>
    intro h
    cases k with
    | succ k' =>
      rcases ih k' h with h1 | h1
      · exact Or.inl h1
      · exact Or.inr (List.mem_cons_of_mem x h1)
    | zero =>
      rw [replaceStrGo] at h
      split at h
      · rcases List.mem_append.mp h with h1 | h1
        · exact Or.inl h1
        · rcases ih (pat.length - 1) h1 with h2 | h2
          · exact Or.inl h2
          · exact Or.inr (List.mem_cons_of_mem x h2)
      · rcases List.mem_cons.mp h with rfl | h1
        · exact Or.inr (List.mem_cons_self c rest)
        · rcases ih 0 h1 with h2 | h2
          · exact Or.inl h2
          · exact Or.inr (List.mem_cons_of_mem x h2)

theorem replaceChar_chars {a r : Char} {s : PyStr} {c : Char}
    (h : c ∈ replaceChar a r s) : c = r ∨ c ∈ s := by
  obtain ⟨x, hx, hxc⟩ := List.mem_map.mp h
  by_cases hxa : x = a
  · rw [hxa] at hxc
    simp at hxc
    exact Or.inl hxc.symm
  · rw [if_neg hxa] at hxc
    exact Or.inr (hxc ▸ hx)

theorem subRunGo_chars {p : Char → Bool} {thr : Nat} {rep : PyStr} {c : Char} :
    ∀ (s run : PyStr), c ∈ subRunGo p thr rep run s → c ∈ rep ∨ c ∈ run ∨ c ∈ s := by
  intro s
  induction s with
  | nil =>
    intro run h
    rw [subRunGo] at h
    unfold subRunFlush at h
    split at h
    · cases h
    · split at h
      · exact Or.inl h
      · exact Or.inr (Or.inl h)
  | cons x rest ih =>
    intro run h
    rw [subRunGo] at h
    split at h
    · rcases ih (run ++ [x]) h with h1 | h1 | h1
      · exact Or.inl h1
      · rcases List.mem_append.mp h1 with h2 | h2
        · exact Or.inr (Or.inl h2)
        · simp only [List.mem_singleton] at h2
          exact Or.inr (Or.inr (h2 ▸ List.mem_cons_self x rest))
      · exact Or.inr (Or.inr (List.mem_cons_of_mem x h1))
    · rcases List.mem_append.mp h with h1 | h1
      · unfold subRunFlush at h1
        split at h1
        · cases h1
        · split at h1
          · exact Or.inl h1
          · exact Or.inr (Or.inl h1)
      · rcases List.mem_cons.mp h1 with rfl | h2
        · exact Or.inr (Or.inr (List.mem_cons_self c rest))
        · rcases ih [] h2 with h3 | h3 | h3
          · exact Or.inl h3
          · cases h3
          · exact Or.inr (Or.inr (List.mem_cons_of_mem x h3))

theorem subRun_chars {p : Char → Bool} {thr : Nat} {rep s : PyStr} {c : Char}
    (h : c ∈ subRun p thr rep s) : c ∈ rep ∨ c ∈ s := by
  rcases subRunGo_chars s [] h with h1 | h1 | h1
  · exact Or.inl h1
  · cases h1
  · exact Or.inr h1

theorem cleanOneLine_allWs {l : PyStr} (h : ∀ c ∈ l, isPySpace c = true) :
    cleanOneLine l = [] := by
  unfold cleanOneLine strip_html_entities remove_quotes standardize_spaces
  have hamp : '&' ∉ l := fun hin => by
    have := h '&' hin
    simp [isPySpace] at this
  rw [unescape_id_of_no_amp hamp,
    replaceStr_id_of_no_head (show (pys "&nbsp;").head? = some '&' from rfl) hamp]
  apply pyRstrip_eq_nil_of_allWs
  intro c hc
  rcases subRun_chars hc with h1 | h1
  · simp only [List.mem_singleton] at h1
    simp [h1, isPySpace]
  · rcases replaceChar_chars h1 with h2 | h2
    · simp [h2, isPySpace]
    · have h3 := List.mem_filter.mp h2
      rcases replaceChar_chars h3.1 with h4 | h4
      · simp [h4, isPySpace]
      · exact h c h4

theorem mem_splitNL_chars {s l : PyStr} {c : Char} (hl : l ∈ splitNL s) (hc : c ∈ l) :
    c ∈ s := by
  induction s generalizing l with
  | nil =>
    simp [splitNL] at hl
    rw [hl] at hc
    cases hc
  | cons x rest ih =>
    by_cases hx : x = '\n'
    · rw [show splitNL (x :: rest) = [] :: splitNL rest by simp [splitNL, hx]] at hl
      rcases List.mem_cons.mp hl with rfl | hmem
      · cases hc
      · exact List.mem_cons_of_mem x (ih hmem hc)
    · rcases hr : splitNL rest with _ | ⟨h1, t⟩
      · exact absurd hr (splitNL_ne_nil rest)
      · rw [show splitNL (x :: rest) = (x :: h1) :: t by simp [splitNL, hx, hr]] at hl
        rcases List.mem_cons.mp hl with rfl | hmem
        · rcases List.mem_cons.mp hc with rfl | hc1
          · exact List.mem_cons_self c rest
          · exact List.mem_cons_of_mem x (ih (hr ▸ List.mem_cons_self h1 t) hc1)
        · exact List.mem_cons_of_mem x (ih (hr ▸ List.mem_cons_of_mem h1 hmem) hc)

theorem joinNL_chars {M : List PyStr} {c : Char} (h : c ∈ joinNL M) :
    c = '\n' ∨ ∃ l ∈ M, c ∈ l := by
  induction M with
  | nil => cases h
  | cons l rest ih =>
    cases rest with
    | nil =>
      exact Or.inr ⟨l, List.mem_cons_self l [], h⟩
    | cons m ms =>
      rw [joinNL_cons (by simp)] at h
      rcases List.mem_append.mp h with h1 | h1
      · exact Or.inr ⟨l, List.mem_cons_self l (m :: ms), h1⟩
      · rcases List.mem_cons.mp h1 with rfl | h2
        · exact Or.inl rfl
        · rcases ih h2 with h3 | ⟨l', hl', hcl'⟩
          · exact Or.inl h3
          · exact Or.inr ⟨l', List.mem_cons_of_mem l hl', hcl'⟩

theorem pyStrip_eq_nil_of_allWs {s : PyStr} (h : ∀ c ∈ s, isPySpace c = true) :
    pyStrip s = [] := by
  unfold pyStrip
  rw [pyLstrip_eq_nil_of_allWs h]
  rfl

theorem clean_text_allWs {raw : PyStr} (h : ∀ c ∈ raw, isPySpace c = true) :
    clean_text raw = [] := by
  unfold clean_text normalize_lines
  have hraw' : ∀ c ∈ replaceChar '\r' '\n' (replaceStr (pys "\r\n") (pys "\n") raw),
      isPySpace c = true := by
    intro c hc
    rcases replaceChar_chars hc with rfl | h1
    · simp [isPySpace]
    · rcases replaceStrGo_chars 0 raw h1 with h2 | h2
      · simp only [pys] at h2
        simp at h2
        simp [h2, isPySpace]
      · exact h c h2
  apply pyStrip_eq_nil_of_allWs
  intro c hc
  rcases subRun_chars hc with h1 | h1
  · have : c = '\n' := by
      simp only [pys] at h1
      simp at h1
      rcases h1 with rfl | rfl | rfl <;> rfl
    simp [this, isPySpace]
  · rcases subRun_chars h1 with h2 | h2
    · have : c = '\n' := by
        simp only [pys] at h2
        simp at h2
        rcases h2 with rfl | rfl <;> rfl
      simp [this, isPySpace]
    · rcases joinNL_chars h2 with rfl | ⟨l, hl, hcl⟩
      · simp [isPySpace]
      · obtain ⟨l0, hl0, rfl⟩ := List.mem_map.mp hl
        rw [cleanOneLine_allWs fun d hd => hraw' d (mem_splitNL_chars hl0 hd)] at hcl
        cases hcl

/-- C6: the pipeline is total by construction in this model (every function
returns a value for every string), and on degenerate input it degrades
rather than failing: every whitespace-only document — the empty string
included — parses to the record with empty primary fields and the template
sections plus an empty placeholder body section; the conjuncts also record
the degenerate values of each core operation on empty input. -/
theorem claim_C6 (raw : PyStr) (h : ∀ c ∈ raw, isPySpace c = true) :
    parse_job raw =
      { job_title := [], company := [], salary := [],
        sections := DEFAULT_SECTION_TEMPLATE ++ [(pys "本文", [])] } ∧
    clean_text [] = [] ∧ identify_headers [[]] = [] ∧
    group_sections [[]] = [(pys "本文", [])] ∧
    find_best_field_match [] = none := by
  refine ⟨?_, by decide, by decide, by decide, by decide⟩
  have hct := clean_text_allWs h
  unfold parse_job
  rw [hct]
  decide

/-- C6 (witness): a concrete whitespace-only input (space, newline,
full-width space). -/
theorem claim_C6_witness :
    (∀ c ∈ pys " \n　", isPySpace c = true) ∧
    parse_job (pys " \n　") =
      { job_title := [], company := [], salary := [],
        sections := DEFAULT_SECTION_TEMPLATE ++ [(pys "本文", [])] } := by
  refine ⟨by decide, ?_⟩
  exact (claim_C6 (pys " \n　") (by decide)).1

/-! ### Idempotence machinery: infix decompositions -/

theorem pref_append_split {l u v : PyStr} (h : l <+: u ++ v) :
    l <+: u ∨ ∃ r, l = u ++ r ∧ r <+: v := by
  induction u generalizing l with
  | nil => exact Or.inr ⟨l, rfl, by simpa using h⟩
  | cons c u' ih =>
    cases l with
    | nil => exact Or.inl (List.nil_prefix)
    | cons d l' =>
      rw [List.cons_append, List.cons_prefix_cons] at h
      obtain ⟨rfl, h2⟩ := h
      rcases ih h2 with h3 | ⟨r, rfl, hr⟩
      · exact Or.inl (List.cons_prefix_cons.mpr ⟨rfl, h3⟩)
      · exact Or.inr ⟨r, by rw [List.cons_append], hr⟩

theorem infx_append_split {l u v : PyStr} (h : l <:+: u ++ v) :
    l <:+: u ∨ l <:+: v ∨
      ∃ l1 l2, l = l1 ++ l2 ∧ l1 ≠ [] ∧ l2 ≠ [] ∧ l1 <:+ u ∧ l2 <+: v := by
  induction u generalizing l with
  | nil => exact Or.inr (Or.inl (by simpa using h))
  | cons c u' ih =>
    rw [List.cons_append] at h
    rcases List.infix_cons_iff.mp h with hpre | hinf
    · cases l with
      | nil => exact Or.inl (List.nil_infix)
      | cons d l' =>
        rw [List.cons_prefix_cons] at hpre
        obtain ⟨rfl, h2⟩ := hpre
        rcases pref_append_split h2 with h3 | ⟨r, rfl, hr⟩
        · exact Or.inl (List.cons_prefix_cons.mpr ⟨rfl, h3⟩).isInfix
        · cases r with
          | nil =>
            refine Or.inl ?_
            rw [List.append_nil]
          | cons e r' =>
            refine Or.inr (Or.inr ⟨d :: u', e :: r', rfl, by simp,
              by simp, List.suffix_refl _, hr⟩)
    · rcases ih hinf with h3 | h3 | ⟨l1, l2, rfl, h1, h2, hsuf, hpre2⟩
      · exact Or.inl (h3.trans (List.infix_cons (List.infix_refl u')))
      · exact Or.inr (Or.inl h3)
      · exact Or.inr (Or.inr ⟨l1, l2, rfl, h1, h2, hsuf.trans (List.suffix_cons c u'), hpre2⟩)

theorem pair_eq_of_append {a b : Char} {l1 l2 : PyStr} (h : l1 ++ l2 = [a, b])
    (h1 : l1 ≠ []) (h2 : l2 ≠ []) : l1 = [a] ∧ l2 = [b] := by
  cases l1 with
  | nil => exact absurd rfl h1
  | cons x l1' =>
    cases l1' with
    | nil =>
      rw [List.cons_append, List.nil_append] at h
      injection h with hx hrest
      exact ⟨by rw [hx], hrest⟩
    | cons y l1'' =>
      rw [List.cons_append, List.cons_append] at h
      injection h with hx hrest
      injection hrest with hy hrest2
      exact absurd (List.append_eq_nil.mp hrest2).2 h2

theorem mem_of_getLastQ {l : PyStr} {a : Char} (h : l.getLast? = some a) : a ∈ l := by
  rw [← List.head?_reverse] at h
  have : a ∈ l.reverse := by
    cases hr : l.reverse with
    | nil => rw [hr] at h; cases h
    | cons x r =>
      rw [hr] at h
      simp only [List.head?_cons, Option.some.injEq] at h
      rw [← h]
      exact List.mem_cons_self x r
  exact List.mem_reverse.mp this

theorem singleton_pref_head {b : Char} {z : PyStr} (h : [b] <+: z) : z.head? = some b := by
  obtain ⟨t, ht⟩ := h
  rw [← ht]
  rfl

theorem singleton_suffix_last {a : Char} {z : PyStr} (h : [a] <:+ z) : z.getLast? = some a := by
  obtain ⟨t, ht⟩ := h
  rw [← ht]
  simp

theorem pyRstrip_pref (s : PyStr) : pyRstrip s <+: s :=
  ⟨(s.reverse.takeWhile isPySpace).reverse, by
    show (s.reverse.dropWhile isPySpace).reverse ++ (s.reverse.takeWhile isPySpace).reverse = s
    rw [← List.reverse_append, List.takeWhile_append_dropWhile, List.reverse_reverse]⟩

theorem pyStrip_infx (s : PyStr) : pyStrip s <:+: s :=
  (pyRstrip_pref (pyLstrip s)).isInfix.trans (List.dropWhile_suffix isPySpace).isInfix

/-! ### `subRun` on inputs whose class runs are already short -/

/-- `subRun` is the identity when every maximal class run flushes to itself;
the second hypothesis bounds the length of every all-class infix. -/
theorem subRun_id_of_short_runs {p : Char → Bool} {thr : Nat} {rep : PyStr} {k : Nat}
    (hflush : ∀ x : PyStr, x ≠ [] → (∀ c ∈ x, p c = true) → x.length ≤ k →
      subRunFlush thr rep x = x) :
    ∀ (n : Nat) (s : PyStr), s.length ≤ n →
      (∀ x : PyStr, x <:+: s → (∀ c ∈ x, p c = true) → x.length ≤ k) →
      subRun p thr rep s = s := by
  intro n
  induction n with
  | zero =>
    intro s hs _
    have hnil : s = [] := by
      cases s with
      | nil => rfl
      | cons c r => simp at hs
    rw [hnil]
    exact subRun_nil
  | succ n ih =>
    intro s hs hruns
    rcases head_run_decomp p s with rfl | ⟨c, rest, rfl, hc⟩ | ⟨x, t, rfl, hx0, hx, ht, hlt⟩
    · exact subRun_nil
    · rw [subRun_cons_neg hc, ih rest (by simp only [List.length_cons] at hs; omega)
        fun y hy hyp => hruns y (List.infix_cons hy) hyp]
    · rw [subRun_run_split hx ht,
        hflush x hx0 hx (hruns x (List.prefix_append x t).isInfix hx),
        ih t (by omega) fun y hy hyp => hruns y (hy.trans (List.suffix_append x t).isInfix) hyp]

theorem flush_hspace_id : ∀ x : PyStr, x ≠ [] → (∀ c ∈ x, isHSpace c = true) →
    x.length ≤ 1 → subRunFlush 2 [' '] x = x := by
  intro x hne _ hlen
  unfold subRunFlush
  rw [if_neg hne, if_neg (by omega)]

theorem flush_nl2_id : ∀ x : PyStr, x ≠ [] → (∀ c ∈ x, isNl c = true) →
    x.length ≤ 2 → subRunFlush 2 (pys "\n\n") x = x := by
  intro x hne hx hlen
  unfold subRunFlush
  rw [if_neg hne]
  by_cases h2 : 2 ≤ x.length
  · rw [if_pos h2]
    have hx2 : x.length = 2 := by omega
    have hrepl := eq_replicate_of_all_nl hx
    rw [hx2] at hrepl
    rw [hrepl]
    rfl
  · rw [if_neg h2]

theorem flush_nl4_id : ∀ x : PyStr, x ≠ [] → (∀ c ∈ x, isNl c = true) →
    x.length ≤ 2 → subRunFlush 4 (pys "\n\n\n") x = x := by
  intro x hne _ hlen
  unfold subRunFlush
  rw [if_neg hne, if_neg (by omega)]

/-- Every character of a flushed run is in the replacement or in the run. -/
theorem subRunFlush_chars {thr : Nat} {rep x : PyStr} {c : Char}
    (h : c ∈ subRunFlush thr rep x) : c ∈ rep ∨ c ∈ x := by
  unfold subRunFlush at h
  split at h
  · cases h
  · split at h
    · exact Or.inl h
    · exact Or.inr h

theorem subRunFlush_len {thr : Nat} {rep x : PyStr} (hthr : thr ≤ 3)
    (hrep : rep.length ≤ 2) (hx : thr ≤ x.length ∨ x.length ≤ 2) :
    (subRunFlush thr rep x).length ≤ 2 := by
  unfold subRunFlush
  split
  · simp
  · split
    · exact hrep
    · omega

theorem subRunFlush_ne_nil {thr : Nat} {rep x : PyStr} (hrep : rep ≠ []) (hx : x ≠ []) :
    subRunFlush thr rep x ≠ [] := by
  unfold subRunFlush
  rw [if_neg hx]
  split
  · exact hrep
  · exact hx

/-! ### Structure of `subRun` outputs: heads, pairs and runs -/

theorem subRun_nl_head {thr : Nat} {rep : PyStr} (hrepne : rep ≠ [])
    (hrep : ∀ c ∈ rep, isNl c = true) {t : PyStr} {d : Char}
    (h : (subRun isNl thr rep t).head? = some d) : t.head? = some d := by
  rcases head_run_decomp isNl t with rfl | ⟨c, rest, rfl, hc⟩ | ⟨x, t', rfl, hx0, hx, ht, hlt⟩
  · rw [subRun_nil] at h
    cases h
  · rw [subRun_cons_neg hc] at h
    exact h
  · rw [subRun_run_split hx ht] at h
    rcases hf : subRunFlush thr rep x with _ | ⟨e, f⟩
    · exact absurd hf (@subRunFlush_ne_nil thr rep x hrepne hx0)
    · rw [hf] at h
      simp only [List.cons_append, List.head?_cons, Option.some.injEq] at h
      have he : isNl e = true := by
        rcases subRunFlush_chars (hf ▸ List.mem_cons_self e f) with h1 | h1
        · exact hrep e h1
        · exact hx e h1
      cases x with
      | nil => exact absurd rfl hx0
      | cons x0 xr =>
        have hx0nl : isNl x0 = true := hx x0 (List.mem_cons_self x0 xr)
        have he2 : e = '\n' := by simpa [isNl] using he
        have hx0eq : x0 = '\n' := by simpa [isNl] using hx0nl
        rw [List.cons_append, List.head?_cons, hx0eq, ← h, he2]

/-- A two-character window whose left character is not a newline survives a
newline-run substitution backwards: the two characters were already adjacent
in the input. -/
theorem subRun_nl_pair_rev {thr : Nat} {rep : PyStr} (hrepne : rep ≠ [])
    (hrep : ∀ c ∈ rep, isNl c = true) :
    ∀ (n : Nat) (s : PyStr), s.length ≤ n → ∀ a b : Char, ¬ isNl a = true →
      [a, b] <:+: subRun isNl thr rep s → [a, b] <:+: s := by
  intro n
  induction n with
  | zero =>
    intro s hs a b _ h
    have hnil : s = [] := by
      cases s with
      | nil => rfl
      | cons c r => simp at hs
    subst hnil
    rw [subRun_nil] at h
    have := h.length_le
    simp at this
  | succ n ih =>
    intro s hs a b ha h
    rcases head_run_decomp isNl s with rfl | ⟨c, rest, rfl, hc⟩ | ⟨x, t, rfl, hx0, hx, ht, hlt⟩
    · rw [subRun_nil] at h
      have := h.length_le
      simp at this
    · rw [subRun_cons_neg hc] at h
      rcases List.infix_cons_iff.mp h with hp | hi
      · rw [List.cons_prefix_cons] at hp
        obtain ⟨rfl, hb⟩ := hp
        have hh := subRun_nl_head hrepne hrep (singleton_pref_head hb)
        rcases rest with _ | ⟨r0, r'⟩
        · cases hh
        · simp only [List.head?_cons, Option.some.injEq] at hh
          subst hh
          exact (List.cons_prefix_cons.mpr ⟨rfl, ⟨r', rfl⟩⟩).isInfix
      · exact List.infix_cons (ih rest (by simp only [List.length_cons] at hs; omega) a b ha hi)
    · rw [subRun_run_split hx ht] at h
      rcases infx_append_split h with h1 | h1 | ⟨l1, l2, heq, hne1, hne2, hsuf, hpre⟩
      · have ha2 : a ∈ subRunFlush thr rep x :=
          h1.sublist.subset (List.mem_cons_self a [b])
        rcases subRunFlush_chars ha2 with hh | hh
        · exact absurd (hrep a hh) ha
        · exact absurd (hx a hh) ha
      · exact (ih t (by omega) a b ha h1).trans (List.suffix_append x t).isInfix
      · obtain ⟨h11, h22⟩ := pair_eq_of_append heq.symm hne1 hne2
        subst h11
        have hlast := singleton_suffix_last hsuf
        have haf : a ∈ subRunFlush thr rep x := mem_of_getLastQ hlast
        rcases subRunFlush_chars haf with hh | hh
        · exact absurd (hrep a hh) ha
        · exact absurd (hx a hh) ha

/-- The space-collapsing substitution never leaves two adjacent horizontal
space characters. -/
theorem subRun_sp_no_pair :
    ∀ (n : Nat) (s : PyStr), s.length ≤ n → ∀ a b : Char,
      [a, b] <:+: subRun isHSpace 2 [' '] s →
      ¬ (isHSpace a = true ∧ isHSpace b = true) := by
  intro n
  induction n with
  | zero =>
    intro s hs a b h hab
    have hnil : s = [] := by
      cases s with
      | nil => rfl
      | cons c r => simp at hs
    subst hnil
    rw [subRun_nil] at h
    have := h.length_le
    simp at this
  | succ n ih =>
    intro s hs a b h hab
    obtain ⟨hpa, hpb⟩ := hab
    rcases head_run_decomp isHSpace s with rfl | ⟨c, rest, rfl, hc⟩ | ⟨x, t, rfl, hx0, hx, ht, hlt⟩
    · rw [subRun_nil] at h
      have := h.length_le
      simp at this
    · rw [subRun_cons_neg hc] at h
      rcases List.infix_cons_iff.mp h with hp | hi
      · rw [List.cons_prefix_cons] at hp
        exact hc (hp.1 ▸ hpa)
      · exact ih rest (by simp only [List.length_cons] at hs; omega) a b hi ⟨hpa, hpb⟩
    · rw [subRun_run_split hx ht] at h
      have hflen : (subRunFlush 2 [' '] x).length ≤ 1 := by
        unfold subRunFlush
        split
        · simp
        · split
          · simp
          · omega
      rcases infx_append_split h with h1 | h1 | ⟨l1, l2, heq, hne1, hne2, hsuf, hpre⟩
      · have := h1.length_le
        simp at this
        omega
      · exact ih t (by omega) a b h1 ⟨hpa, hpb⟩
      · obtain ⟨h11, h22⟩ := pair_eq_of_append heq.symm hne1 hne2
        subst h22
        have hhead := singleton_pref_head hpre
        rcases ht with rfl | ⟨d, t', rfl, hd⟩
        · rw [subRun_nil] at hhead
          cases hhead
        · rw [subRun_cons_neg hd] at hhead
          simp only [List.head?_cons, Option.some.injEq] at hhead
          exact hd (hhead ▸ hpb)

/-- After the blank-line collapse, no all-newline window is longer than two
characters. -/
theorem subRun_nl2_no_triple :
    ∀ (n : Nat) (s : PyStr), s.length ≤ n → ∀ x : PyStr,
      x <:+: subRun isNl 2 (pys "\n\n") s → (∀ c ∈ x, isNl c = true) →
      x.length ≤ 2 := by
  intro n
  induction n with
  | zero =>
    intro s hs x hx _
    have hnil : s = [] := by
      cases s with
      | nil => rfl
      | cons c r => simp at hs
    subst hnil
    rw [subRun_nil] at hx
    have h0 : x.length ≤ 0 := by simpa using hx.length_le
    omega
  | succ n ih =>
    intro s hs x hx hall
    rcases head_run_decomp isNl s with rfl | ⟨c, rest, rfl, hc⟩ | ⟨z, t, rfl, hz0, hz, ht, hlt⟩
    · rw [subRun_nil] at hx
      have h0 : x.length ≤ 0 := by simpa using hx.length_le
      omega
    · rw [subRun_cons_neg hc] at hx
      rcases List.infix_cons_iff.mp hx with hp | hi
      · cases x with
        | nil => simp
        | cons e x' =>
          rw [List.cons_prefix_cons] at hp
          exact absurd (hall e (List.mem_cons_self e x')) (hp.1 ▸ hc)
      · exact ih rest (by simp only [List.length_cons] at hs; omega) x hi hall
    · rw [subRun_run_split hz ht] at hx
      have hflen : (subRunFlush 2 (pys "\n\n") z).length ≤ 2 := by
        rcases le_or_lt 2 z.length with hzl | hzl
        · exact subRunFlush_len (by omega) (by simp [pys]) (Or.inl hzl)
        · exact subRunFlush_len (by omega) (by simp [pys]) (Or.inr (by omega))
      rcases infx_append_split hx with h1 | h1 | ⟨l1, l2, heq, hne1, hne2, hsuf, hpre⟩
      · exact le_trans h1.length_le hflen
      · exact ih t (by omega) x h1 hall
      · rcases ht with rfl | ⟨d, t', rfl, hd⟩
        · rw [subRun_nil] at hpre
          exact absurd (List.prefix_nil.mp hpre) hne2
        · rw [subRun_cons_neg hd] at hpre
          cases l2 with
          | nil => exact absurd rfl hne2
          | cons e l2' =>
            rw [List.cons_prefix_cons] at hpre
            have hex : e ∈ x := by
              rw [heq]
              exact List.mem_append_right l1 (List.mem_cons_self e l2')
            exact absurd (hall e hex) (hpre.1 ▸ hd)

/-! ### Character tracking through the per-line cleaners -/

theorem replaceChar_chars_strong {a r : Char} {s : PyStr} {c : Char}
    (h : c ∈ replaceChar a r s) : c = r ∨ (c ∈ s ∧ c ≠ a) := by
  obtain ⟨x, hx, hxc⟩ := List.mem_map.mp h
  by_cases hxa : x = a
  · rw [hxa, if_pos rfl] at hxc
    exact Or.inl hxc.symm
  · rw [if_neg hxa] at hxc
    exact Or.inr ⟨hxc ▸ hx, hxc ▸ hxa⟩

theorem replaceChar_id_of_not_mem {a r : Char} {s : PyStr} (h : a ∉ s) :
    replaceChar a r s = s := by
  unfold replaceChar
  have hcg : ∀ x ∈ s, (if x = a then r else x) = id x := by
    intro x hx
    have hne : ¬ x = a := fun he => h (he ▸ hx)
    rw [if_neg hne]
    rfl
  rw [List.map_congr_left hcg, List.map_id]

theorem remove_quotes_id {l : PyStr} (hq1 : '"' ∉ l) (hq2 : '“' ∉ l) (hq3 : '”' ∉ l) :
    remove_quotes l = l := by
  unfold remove_quotes
  apply List.filter_eq_self.mpr
  intro c hc
  have h1 : ¬ c = '"' := fun e => hq1 (e ▸ hc)
  have h2 : ¬ c = '“' := fun e => hq2 (e ▸ hc)
  have h3 : ¬ c = '”' := fun e => hq3 (e ▸ hc)
  simp [h1, h2, h3]

/-! ### Per-line facts about `cleanOneLine` -/

theorem cleanOneLine_chars {l0 : PyStr} (hamp : '&' ∉ l0) {c : Char}
    (hc : c ∈ cleanOneLine l0) :
    c = ' ' ∨ (c ∈ l0 ∧ c ≠ '"' ∧ c ≠ '“' ∧ c ≠ '”' ∧ c ≠ ' ' ∧ c ≠ '　') := by
  unfold cleanOneLine standardize_spaces at hc
  have h1 := mem_of_mem_pyRstrip hc
  rcases subRun_chars h1 with h2 | h2
  · left
    rcases List.mem_cons.mp h2 with rfl | h3
    · rfl
    · cases h3
  rcases replaceChar_chars_strong h2 with rfl | ⟨h3, hfw⟩
  · exact Or.inl rfl
  unfold remove_quotes at h3
  have h4 := List.mem_filter.mp h3
  have h5 := h4.2
  simp only [Bool.not_eq_true', Bool.or_eq_false_iff, decide_eq_false_iff_not] at h5
  have h6 := h4.1
  have hs : strip_html_entities l0 = replaceChar ' ' ' ' l0 := by
    unfold strip_html_entities
    rw [unescape_id_of_no_amp hamp,
      replaceStr_id_of_no_head (show (pys "&nbsp;").head? = some '&' from rfl) hamp]
  rw [hs] at h6
  rcases replaceChar_chars_strong h6 with rfl | ⟨h7, hnbsp⟩
  · exact Or.inl rfl
  · exact Or.inr ⟨h7, h5.1.1, h5.1.2, h5.2, hnbsp, hfw⟩

theorem cleanOneLine_no_nl {l0 : PyStr} (hamp : '&' ∉ l0) (h : '\n' ∉ l0) :
    '\n' ∉ cleanOneLine l0 := by
  intro hc
  rcases cleanOneLine_chars hamp hc with he | ⟨hmem, _⟩
  · exact absurd he (by decide)
  · exact h hmem

theorem cleanOneLine_sp_no_pair {l0 : PyStr} {a b : Char}
    (h : [a, b] <:+: cleanOneLine l0) : ¬ (isHSpace a = true ∧ isHSpace b = true) := by
  unfold cleanOneLine standardize_spaces at h
  exact subRun_sp_no_pair
    (replaceChar '　' ' ' (remove_quotes (strip_html_entities l0))).length
    _ le_rfl a b (h.trans (pyRstrip_pref _).isInfix)

theorem cleanOneLine_id {l : PyStr}
    (hamp : '&' ∉ l) (hnbsp : ' ' ∉ l) (hq1 : '"' ∉ l) (hq2 : '“' ∉ l) (hq3 : '”' ∉ l)
    (hfw : '　' ∉ l)
    (hsp : ∀ a b : Char, [a, b] <:+: l → ¬ (isHSpace a = true ∧ isHSpace b = true))
    (hr : pyRstrip l = l) :
    cleanOneLine l = l := by
  have hshort : ∀ x : PyStr, x <:+: l → (∀ c ∈ x, isHSpace c = true) → x.length ≤ 1 := by
    intro x hx hall
    by_contra hlen
    push_neg at hlen
    rcases x with _ | ⟨a, x1⟩
    · simp at hlen
    rcases x1 with _ | ⟨b, x2⟩
    · simp at hlen
    have hpref : [a, b] <+: a :: b :: x2 := ⟨x2, rfl⟩
    exact hsp a b (hpref.isInfix.trans hx) ⟨hall a (by simp), hall b (by simp)⟩
  unfold cleanOneLine strip_html_entities standardize_spaces
  rw [unescape_id_of_no_amp hamp,
    replaceStr_id_of_no_head (show (pys "&nbsp;").head? = some '&' from rfl) hamp,
    replaceChar_id_of_not_mem hnbsp,
    remove_quotes_id hq1 hq2 hq3,
    replaceChar_id_of_not_mem hfw,
    subRun_id_of_short_runs flush_hspace_id l.length l le_rfl hshort,
    hr]

/-! ### Positions of lines inside the joined text -/

theorem splitNL_infx : ∀ (s : PyStr),
    (∀ h t, splitNL s = h :: t → h <+: s) ∧ ∀ l ∈ splitNL s, l <:+: s := by
  intro s
  induction s with
  | nil =>
    constructor
    · intro h t he
      rw [show splitNL [] = [[]] from rfl] at he
      injection he with h1 _
      rw [← h1]
    · intro l hl
      rw [show splitNL [] = [[]] from rfl] at hl
      rcases List.mem_cons.mp hl with rfl | h2
      · exact List.nil_infix
      · cases h2
  | cons c rest ih =>
    by_cases hc : c = '\n'
    · have hsp : splitNL (c :: rest) = [] :: splitNL rest := by
        simp [splitNL, hc]
      constructor
      · intro h t he
        rw [hsp] at he
        injection he with h1 _
        rw [← h1]
        exact List.nil_prefix
      · intro l hl
        rw [hsp] at hl
        rcases List.mem_cons.mp hl with rfl | h2
        · exact List.nil_infix
        · exact List.infix_cons (ih.2 l h2)
    · rcases hr : splitNL rest with _ | ⟨h1, t1⟩
      · exact absurd hr (splitNL_ne_nil rest)
      · have hsp : splitNL (c :: rest) = (c :: h1) :: t1 := by
          simp [splitNL, hc, hr]
        constructor
        · intro h t he
          rw [hsp] at he
          injection he with he1 _
          rw [← he1]
          exact List.cons_prefix_cons.mpr ⟨rfl, ih.1 h1 t1 hr⟩
        · intro l hl
          rw [hsp] at hl
          rcases List.mem_cons.mp hl with rfl | h2
          · exact (List.cons_prefix_cons.mpr ⟨rfl, ih.1 h1 t1 hr⟩).isInfix
          · exact List.infix_cons (ih.2 l (by rw [hr]; exact List.mem_cons_of_mem h1 h2))

theorem splitNL_last : ∀ (s : PyStr), ∀ l ∈ splitNL s, l = [] ∨
    ∃ a, l.getLast? = some a ∧ ([a, '\n'] <:+: s ∨ s.getLast? = some a) := by
  intro s
  induction s with
  | nil =>
    intro l hl
    rw [show splitNL [] = [[]] from rfl] at hl
    rcases List.mem_cons.mp hl with rfl | h2
    · exact Or.inl rfl
    · cases h2
  | cons c rest ih =>
    intro l hl
    by_cases hc : c = '\n'
    · rw [show splitNL (c :: rest) = [] :: splitNL rest by simp [splitNL, hc]] at hl
      rcases List.mem_cons.mp hl with rfl | h2
      · exact Or.inl rfl
      · rcases ih l h2 with h3 | ⟨a, ha, hpos⟩
        · exact Or.inl h3
        · refine Or.inr ⟨a, ha, ?_⟩
          rcases hpos with hp | hp
          · exact Or.inl (List.infix_cons hp)
          · rcases rest with _ | ⟨r0, r'⟩
            · cases hp
            · exact Or.inr (by rw [List.getLast?_cons_cons]; exact hp)
    · rcases hr : splitNL rest with _ | ⟨h1, t1⟩
      · exact absurd hr (splitNL_ne_nil rest)
      rw [show splitNL (c :: rest) = (c :: h1) :: t1 by simp [splitNL, hc, hr]] at hl
      rcases List.mem_cons.mp hl with rfl | h2
      · rcases h1 with _ | ⟨d1, h1'⟩
        · refine Or.inr ⟨c, rfl, ?_⟩
          rcases rest with _ | ⟨d, r'⟩
          · exact Or.inr rfl
          · by_cases hd : d = '\n'
            · subst hd
              exact Or.inl ⟨[], r', rfl⟩
            · exfalso
              rcases hr2 : splitNL r' with _ | ⟨h2', t2'⟩
              · exact absurd hr2 (splitNL_ne_nil r')
              · rw [show splitNL (d :: r') = (d :: h2') :: t2' by
                  simp [splitNL, hd, hr2]] at hr
                injection hr with hx _
                exact List.cons_ne_nil d h2' hx
        · have hh1 : (d1 :: h1') ∈ splitNL rest := by
            rw [hr]
            exact List.mem_cons_self _ _
          rcases ih (d1 :: h1') hh1 with h3 | ⟨a, ha, hpos⟩
          · exact absurd h3 (List.cons_ne_nil d1 h1')
          · refine Or.inr ⟨a, by rw [List.getLast?_cons_cons]; exact ha, ?_⟩
            rcases hpos with hp | hp
            · exact Or.inl (List.infix_cons hp)
            · rcases rest with _ | ⟨r0, r'⟩
              · cases hp
              · exact Or.inr (by rw [List.getLast?_cons_cons]; exact hp)
      · have hmem : l ∈ splitNL rest := by
          rw [hr]
          exact List.mem_cons_of_mem h1 h2
        rcases ih l hmem with h3 | ⟨a, ha, hpos⟩
        · exact Or.inl h3
        · refine Or.inr ⟨a, ha, ?_⟩
          rcases hpos with hp | hp
          · exact Or.inl (List.infix_cons hp)
          · rcases rest with _ | ⟨r0, r'⟩
            · cases hp
            · exact Or.inr (by rw [List.getLast?_cons_cons]; exact hp)

theorem joinNL_head {M : List PyStr} {b : Char} (h : (joinNL M).head? = some b) :
    b = '\n' ∨ ∃ l ∈ M, l.head? = some b := by
  induction M with
  | nil => cases h
  | cons l rest ih =>
    cases rest with
    | nil => exact Or.inr ⟨l, List.mem_cons_self l [], h⟩
    | cons m ms =>
      rw [joinNL_cons (by simp)] at h
      cases l with
      | nil =>
        simp only [List.nil_append, List.head?_cons, Option.some.injEq] at h
        exact Or.inl h.symm
      | cons c l' =>
        simp only [List.cons_append, List.head?_cons, Option.some.injEq] at h
        exact Or.inr ⟨c :: l', List.mem_cons_self _ _, by rw [List.head?_cons, h]⟩

theorem joinNL_pair {M : List PyStr} {a b : Char} :
    [a, b] <:+: joinNL M →
      (∃ l ∈ M, [a, b] <:+: l) ∨
      (b = '\n' ∧ ∃ l ∈ M, l.getLast? = some a) ∨
      (a = '\n' ∧ (b = '\n' ∨ ∃ l ∈ M, l.head? = some b)) := by
  induction M with
  | nil =>
    intro h
    have hle := h.length_le
    simp [joinNL] at hle
  | cons l rest ih =>
    intro h
    cases rest with
    | nil => exact Or.inl ⟨l, List.mem_cons_self l [], h⟩
    | cons m ms =>
      rw [joinNL_cons (by simp)] at h
      rcases infx_append_split h with h1 | h1 | ⟨l1, l2, heq, hne1, hne2, hsuf, hpre⟩
      · exact Or.inl ⟨l, List.mem_cons_self _ _, h1⟩
      · rcases List.infix_cons_iff.mp h1 with hp | hi
        · rcases hp with ⟨tl, htl⟩
          injection htl with ha2 htl2
          refine Or.inr (Or.inr ⟨ha2, ?_⟩)
          rcases joinNL_head (singleton_pref_head ⟨tl, htl2⟩) with hb2 | ⟨l2m, hl2m, hb2⟩
          · exact Or.inl hb2
          · exact Or.inr ⟨l2m, List.mem_cons_of_mem l hl2m, hb2⟩
        · rcases ih hi with ⟨l2m, hl2m, hll⟩ | ⟨hb, l2m, hl2m, hla⟩ | ⟨ha2, hrest⟩
          · exact Or.inl ⟨l2m, List.mem_cons_of_mem l hl2m, hll⟩
          · exact Or.inr (Or.inl ⟨hb, l2m, List.mem_cons_of_mem l hl2m, hla⟩)
          · rcases hrest with hb2 | ⟨l2m, hl2m, hb2⟩
            · exact Or.inr (Or.inr ⟨ha2, Or.inl hb2⟩)
            · exact Or.inr (Or.inr ⟨ha2, Or.inr ⟨l2m, List.mem_cons_of_mem l hl2m, hb2⟩⟩)
      · obtain ⟨h11, h22⟩ := pair_eq_of_append heq.symm hne1 hne2
        subst h11
        subst h22
        have hb : b = '\n' := by
          have hh := singleton_pref_head hpre
          simp only [List.head?_cons, Option.some.injEq] at hh
          exact hh.symm
        exact Or.inr (Or.inl ⟨hb, l, List.mem_cons_self _ _, singleton_suffix_last hsuf⟩)

/-! ### Strip identities and heads -/

theorem pref_headQ {w z : PyStr} {c : Char} (hp : w <+: z) (h : w.head? = some c) :
    z.head? = some c := by
  obtain ⟨t, rfl⟩ := hp
  cases w with
  | nil => cases h
  | cons d r => exact h

theorem pyRstrip_eq_self {l : PyStr}
    (h : ∀ a, l.getLast? = some a → isPySpace a = false) : pyRstrip l = l := by
  unfold pyRstrip
  rcases hl : l.reverse with _ | ⟨a, r⟩
  · rw [List.dropWhile_nil, ← hl, List.reverse_reverse]
  · have hlast : l.getLast? = some a := by
      rw [← List.head?_reverse, hl]
      rfl
    rw [List.dropWhile_cons_of_neg (by rw [h a hlast]; exact Bool.false_ne_true), ← hl,
      List.reverse_reverse]

theorem pyLstrip_eq_self {l : PyStr}
    (h : ∀ a, l.head? = some a → isPySpace a = false) : pyLstrip l = l := by
  unfold pyLstrip
  cases l with
  | nil => rfl
  | cons a r =>
    exact List.dropWhile_cons_of_neg (by rw [h a rfl]; exact Bool.false_ne_true)

theorem pyStrip_eq_self {l : PyStr}
    (hh : ∀ a, l.head? = some a → isPySpace a = false)
    (hl : ∀ a, l.getLast? = some a → isPySpace a = false) : pyStrip l = l := by
  unfold pyStrip
  rw [pyLstrip_eq_self hh]
  exact pyRstrip_eq_self hl

theorem pyStrip_ne_nil_of_mem {l : PyStr} {a : Char} (ha : a ∈ l)
    (hws : isPySpace a = false) : pyStrip l ≠ [] := by
  have hnp : ¬ isPySpace a = true := by
    rw [hws]
    exact Bool.false_ne_true
  intro hcon
  unfold pyStrip pyRstrip at hcon
  have h1 : a ∈ pyLstrip l := by
    have hsplit : l.takeWhile isPySpace ++ l.dropWhile isPySpace = l :=
      List.takeWhile_append_dropWhile isPySpace l
    rw [← hsplit] at ha
    rcases List.mem_append.mp ha with h4 | h4
    · exact absurd (List.mem_takeWhile_imp h4) hnp
    · exact h4
  have h2 : a ∈ (pyLstrip l).reverse := List.mem_reverse.mpr h1
  have h3 := dropWhile_ne_nil_of_exists h2 hnp
  exact h3 (List.reverse_eq_nil_iff.mp hcon)

theorem pyStrip_head_not_ws {s : PyStr} {c : Char} (h : (pyStrip s).head? = some c) :
    isPySpace c = false := by
  unfold pyStrip at h
  have h2 := pref_headQ (pyRstrip_pref (pyLstrip s)) h
  rcases hl : pyLstrip s with _ | ⟨d, r⟩
  · rw [hl] at h2
    cases h2
  · rw [hl] at h2
    simp only [List.head?_cons, Option.some.injEq] at h2
    exact Bool.eq_false_iff.mpr (h2 ▸ pyLstrip_head_not_ws hl)

theorem pyStrip_last_not_ws {s : PyStr} {c : Char} (h : (pyStrip s).getLast? = some c) :
    isPySpace c = false := by
  unfold pyStrip at h
  exact Bool.eq_false_iff.mpr (pyRstrip_getLast_not_ws h)

/-! ### Shape of `clean_text` output -/

theorem mem_normNewlines {x : PyStr} {c : Char}
    (h : c ∈ replaceChar '\r' '\n' (replaceStr (pys "\r\n") (pys "\n") x)) :
    c ≠ '\r' ∧ (c = '\n' ∨ c ∈ x) := by
  rcases replaceChar_chars_strong h with rfl | ⟨h1, hne⟩
  · exact ⟨by decide, Or.inl rfl⟩
  · refine ⟨hne, ?_⟩
    unfold replaceStr at h1
    rcases replaceStrGo_chars 0 x h1 with h2 | h2
    · rw [show (pys "\n" : PyStr) = ['\n'] from rfl] at h2
      rcases List.mem_cons.mp h2 with rfl | h3
      · exact Or.inl rfl
      · cases h3
    · exact Or.inr h2

theorem clean_text_line_chars {x : PyStr} {c : Char} (hc : c ∈ clean_text x) :
    c = '\n' ∨ ∃ l0 ∈ splitNL (replaceChar '\r' '\n' (replaceStr (pys "\r\n") (pys "\n") x)),
      c ∈ cleanOneLine l0 := by
  unfold clean_text normalize_lines at hc
  have h1 := mem_of_mem_pyStrip hc
  unfold collapse_newlines at h1
  rcases subRun_chars h1 with h2 | h2
  · left
    rw [show (pys "\n\n\n" : PyStr) = ['\n', '\n', '\n'] from rfl] at h2
    rcases List.mem_cons.mp h2 with rfl | h3
    · rfl
    rcases List.mem_cons.mp h3 with rfl | h4
    · rfl
    rcases List.mem_cons.mp h4 with rfl | h5
    · rfl
    · cases h5
  rcases subRun_chars h2 with h3 | h3
  · left
    rw [show (pys "\n\n" : PyStr) = ['\n', '\n'] from rfl] at h3
    rcases List.mem_cons.mp h3 with rfl | h4
    · rfl
    rcases List.mem_cons.mp h4 with rfl | h5
    · rfl
    · cases h5
  rcases joinNL_chars h3 with h4 | ⟨l, hl, hcl⟩
  · exact Or.inl h4
  · obtain ⟨l0, hl0, rfl⟩ := List.mem_map.mp hl
    exact Or.inr ⟨l0, hl0, hcl⟩

theorem clean_text_no_bad_char {x : PyStr} (hamp : '&' ∉ x) :
    ∀ c ∈ clean_text x,
      c ≠ '\r' ∧ c ≠ '&' ∧ c ≠ ' ' ∧ c ≠ '"' ∧ c ≠ '“' ∧ c ≠ '”' ∧ c ≠ '　' := by
  intro c hc
  rcases clean_text_line_chars hc with rfl | ⟨l0, hl0, hcl⟩
  · exact ⟨by decide, by decide, by decide, by decide, by decide, by decide, by decide⟩
  · have hampl0 : '&' ∉ l0 := by
      intro hin
      rcases (mem_normNewlines (mem_splitNL_chars hl0 hin)).2 with he | he
      · exact absurd he (by decide)
      · exact hamp he
    rcases cleanOneLine_chars hampl0 hcl with rfl | ⟨hmem, hq1, hq2, hq3, hnb, hfw⟩
    · exact ⟨by decide, by decide, by decide, by decide, by decide, by decide, by decide⟩
    · have hs0 := mem_normNewlines (mem_splitNL_chars hl0 hmem)
      refine ⟨hs0.1, ?_, hnb, hq1, hq2, hq3, hfw⟩
      intro he
      rcases hs0.2 with he2 | he2
      · rw [he] at he2
        exact absurd he2 (by decide)
      · exact hamp (he ▸ he2)

theorem clean_text_pair_nl {x : PyStr} (hamp : '&' ∉ x) {a : Char} (ha : ¬ a = '\n')
    (h : [a, '\n'] <:+: clean_text x) : isPySpace a = false := by
  unfold clean_text normalize_lines at h
  have h1 := h.trans (pyStrip_infx _)
  unfold collapse_newlines at h1
  have hanl : ¬ isNl a = true := by
    simp only [isNl, decide_eq_true_eq]
    exact ha
  have h2 := subRun_nl_pair_rev (by decide) (by decide) _ _ le_rfl a '\n' hanl h1
  have h3 := subRun_nl_pair_rev (by decide) (by decide) _ _ le_rfl a '\n' hanl h2
  rcases joinNL_pair h3 with ⟨l, hl, hpair⟩ | ⟨_, l, hl, hlast⟩ | ⟨ha2, _⟩
  · exfalso
    obtain ⟨l0, hl0, rfl⟩ := List.mem_map.mp hl
    have hnlmem : '\n' ∈ cleanOneLine l0 :=
      hpair.sublist.subset (List.mem_cons_of_mem a (List.mem_cons_self '\n' []))
    have hampl0 : '&' ∉ l0 := by
      intro hin
      rcases (mem_normNewlines (mem_splitNL_chars hl0 hin)).2 with he | he
      · exact absurd he (by decide)
      · exact hamp he
    exact cleanOneLine_no_nl hampl0 (mem_splitNL_no_nl hl0) hnlmem
  · obtain ⟨l0, hl0, rfl⟩ := List.mem_map.mp hl
    unfold cleanOneLine at hlast
    exact Bool.eq_false_iff.mpr (pyRstrip_getLast_not_ws hlast)
  · exact absurd ha2 ha

theorem clean_text_pair_sp {x : PyStr} {a b : Char} (h : [a, b] <:+: clean_text x) :
    ¬ (isHSpace a = true ∧ isHSpace b = true) := by
  intro hab
  have ha' : a = ' ' ∨ a = '\t' := by
    have h0 := hab.1
    simp only [isHSpace, Bool.or_eq_true, decide_eq_true_eq] at h0
    exact h0
  have hanl : ¬ isNl a = true := by
    rcases ha' with rfl | rfl
    · decide
    · decide
  unfold clean_text normalize_lines at h
  have h1 := h.trans (pyStrip_infx _)
  unfold collapse_newlines at h1
  have h2 := subRun_nl_pair_rev (by decide) (by decide) _ _ le_rfl a b hanl h1
  have h3 := subRun_nl_pair_rev (by decide) (by decide) _ _ le_rfl a b hanl h2
  rcases joinNL_pair h3 with ⟨l, hl, hpair⟩ | ⟨hb, _, _, _⟩ | ⟨ha2, _⟩
  · obtain ⟨l0, hl0, rfl⟩ := List.mem_map.mp hl
    exact cleanOneLine_sp_no_pair hpair hab
  · have hbsp := hab.2
    rw [hb] at hbsp
    exact absurd hbsp (by decide)
  · have hasp := hab.1
    rw [ha2] at hasp
    exact absurd hasp (by decide)

theorem clean_text_no_triple {x : PyStr} : ¬ (pys "\n\n\n" <:+: clean_text x) := by
  intro h
  unfold clean_text normalize_lines at h
  have h1 := h.trans (pyStrip_infx _)
  unfold collapse_newlines at h1
  rw [collapse_newlines_second_sub_dead
    (joinNL ((splitNL (replaceChar '\r' '\n'
      (replaceStr (pys "\r\n") (pys "\n") x))).map cleanOneLine)).length _ le_rfl] at h1
  have hlen := subRun_nl2_no_triple _ _ le_rfl (pys "\n\n\n") h1 (by decide)
  exact absurd hlen (by decide)

theorem clean_text_head_not_ws {x : PyStr} {c : Char}
    (h : (clean_text x).head? = some c) : isPySpace c = false := by
  unfold clean_text normalize_lines at h
  exact pyStrip_head_not_ws h

theorem clean_text_last_not_ws {x : PyStr} {c : Char}
    (h : (clean_text x).getLast? = some c) : isPySpace c = false := by
  unfold clean_text normalize_lines at h
  exact pyStrip_last_not_ws h

/-! ### Idempotence of the cleaning pipeline -/

/-- The cleaning pipeline is the identity on text that is already in cleaned
form: no carriage return, ampersand, non-breaking space, quote character or
full-width space; no two adjacent horizontal spaces; no run of three
newlines; no whitespace at a line end; and no leading or trailing
whitespace. -/
theorem clean_text_id_of_cleaned {y : PyStr}
    (hbad : ∀ c ∈ y, c ≠ '\r' ∧ c ≠ '&' ∧ c ≠ ' ' ∧ c ≠ '"' ∧ c ≠ '“' ∧ c ≠ '”' ∧ c ≠ '　')
    (hsp : ∀ a b : Char, [a, b] <:+: y → ¬ (isHSpace a = true ∧ isHSpace b = true))
    (hnl3 : ¬ (pys "\n\n\n" <:+: y))
    (hwsnl : ∀ a : Char, ¬ a = '\n' → [a, '\n'] <:+: y → isPySpace a = false)
    (hhead : ∀ c, y.head? = some c → isPySpace c = false)
    (hlast : ∀ c, y.getLast? = some c → isPySpace c = false) :
    clean_text y = y := by
  unfold clean_text
  rw [replaceStr_id_of_no_head (show (pys "\r\n").head? = some '\r' from rfl)
      (fun hin => (hbad _ hin).1 rfl),
    replaceChar_id_of_not_mem (fun hin => (hbad _ hin).1 rfl)]
  unfold normalize_lines
  have hline : ∀ l ∈ splitNL y, cleanOneLine l = l := by
    intro l hl
    have hinf : l <:+: y := (splitNL_infx y).2 l hl
    apply cleanOneLine_id
    · exact fun hin => (hbad _ (mem_splitNL_chars hl hin)).2.1 rfl
    · exact fun hin => (hbad _ (mem_splitNL_chars hl hin)).2.2.1 rfl
    · exact fun hin => (hbad _ (mem_splitNL_chars hl hin)).2.2.2.1 rfl
    · exact fun hin => (hbad _ (mem_splitNL_chars hl hin)).2.2.2.2.1 rfl
    · exact fun hin => (hbad _ (mem_splitNL_chars hl hin)).2.2.2.2.2.1 rfl
    · exact fun hin => (hbad _ (mem_splitNL_chars hl hin)).2.2.2.2.2.2 rfl
    · exact fun a b hp => hsp a b (hp.trans hinf)
    · rcases splitNL_last y l hl with rfl | ⟨a, ha, hpos⟩
      · rfl
      · apply pyRstrip_eq_self
        intro a' ha'
        rw [ha] at ha'
        injection ha' with he
        rw [← he]
        rcases hpos with hp | hp
        · have hanl : ¬ a = '\n' := fun he2 =>
            mem_splitNL_no_nl hl (he2 ▸ mem_of_getLastQ ha)
          exact hwsnl a hanl hp
        · exact hlast a hp
  have hmap : (splitNL y).map cleanOneLine = splitNL y := by
    calc (splitNL y).map cleanOneLine = (splitNL y).map id :=
        List.map_congr_left fun l hl => hline l hl
      _ = splitNL y := List.map_id _
  rw [hmap, joinNL_splitNL]
  have hruns : ∀ x2 : PyStr, x2 <:+: y → (∀ c ∈ x2, isNl c = true) → x2.length ≤ 2 := by
    intro x2 hx2 hall
    by_contra hlen
    push_neg at hlen
    rcases x2 with _ | ⟨a, x3⟩
    · simp at hlen
    rcases x3 with _ | ⟨b, x4⟩
    · simp at hlen
    rcases x4 with _ | ⟨c, x5⟩
    · simp at hlen
    have ha : a = '\n' := by simpa [isNl] using hall a (by simp)
    have hb : b = '\n' := by simpa [isNl] using hall b (by simp)
    have hc : c = '\n' := by simpa [isNl] using hall c (by simp)
    apply hnl3
    have hpref : (pys "\n\n\n" : PyStr) <+: a :: b :: c :: x5 := by
      rw [ha, hb, hc]
      exact ⟨x5, rfl⟩
    exact hpref.isInfix.trans hx2
  unfold collapse_newlines
  rw [subRun_id_of_short_runs flush_nl2_id y.length y le_rfl hruns,
    subRun_id_of_short_runs flush_nl4_id y.length y le_rfl hruns]
  exact pyStrip_eq_self hhead hlast

/-- C2 (counterexample): text normalization is not idempotent on all input:
`html.unescape` resolves one layer of escaping per pass, so `"&amp;amp;"`
cleans to `"&amp;"`, which cleans again to the different string `"&"`. -/
theorem claim_C2_counterexample :
    clean_text (clean_text (pys "&amp;amp;")) ≠ clean_text (pys "&amp;amp;") := by decide

/-- C2 (amended): on every ampersand-free input — where no character
reference can survive into the first pass's output — `clean_text` is
idempotent: the first pass already removes carriage returns, quotes,
non-breaking and full-width spaces, collapses space and blank-line runs,
right-strips every line and strips the whole text, and each of these
operations leaves such cleaned text unchanged. -/
theorem claim_C2_amended (x : PyStr) (h : '&' ∉ x) :
    clean_text (clean_text x) = clean_text x :=
  clean_text_id_of_cleaned (clean_text_no_bad_char h)
    (fun a b hp => clean_text_pair_sp hp)
    clean_text_no_triple
    (fun a ha hp => clean_text_pair_nl h ha hp)
    (fun c hc => clean_text_head_not_ws hc)
    (fun c hc => clean_text_last_not_ws hc)

/-- C2 (witness): the amended idempotence at a concrete ampersand-free input
with runs of spaces, a Windows line break and stray blank lines. -/
theorem claim_C2_witness :
    ('&' ∉ pys "a  b\r\n\n\nc ") ∧
    clean_text (clean_text (pys "a  b\r\n\n\nc ")) = clean_text (pys "a  b\r\n\n\nc ") :=
  ⟨by decide, claim_C2_amended (pys "a  b\r\n\n\nc ") (by decide)⟩

/-! ### Span structure of `group_sections` -/

theorem find?_eq_some_of_nodup {α : Type} (g : α → PyStr) [DecidableEq α] :
    ∀ (ps : List α) (x : α), (ps.map g).Nodup → x ∈ ps →
      ps.find? (fun y => g y = g x) = some x := by
  intro ps
  induction ps with
  | nil =>
    intro x _ hx
    cases hx
  | cons z rest ih =>
    intro x hnd hx
    have hnd2 : g z ∉ rest.map g ∧ (rest.map g).Nodup := by
      rw [List.map_cons] at hnd
      exact List.nodup_cons.mp hnd
    rcases List.mem_cons.mp hx with rfl | hmem
    · have hp : (decide (g x = g x)) = true := by simp
      rw [List.find?_cons_of_pos rest hp]
    · have hne : ¬ (decide (g z = g x)) = true := by
        simp only [decide_eq_true_eq]
        intro he
        exact hnd2.1 (he ▸ List.mem_map_of_mem g hmem)
      rw [List.find?_cons_of_neg rest hne]
      exact ih x hnd2.2 hmem

theorem withEnds_map_fst : ∀ (hs : List HeaderCandidate) (n : Nat),
    (withEnds hs n).map (fun ce => ce.1) = hs := by
  intro hs
  induction hs with
  | nil => intro n; rfl
  | cons c rest ih =>
    intro n
    cases rest with
    | nil => rfl
    | cons c' rest' =>
      show ((c, c'.index) :: withEnds (c' :: rest') n).map (fun ce => ce.1) = c :: c' :: rest'
      rw [List.map_cons, ih n]

theorem group_sections_lookup {lines : List PyStr} {ce : HeaderCandidate × Nat}
    (hh : ¬ identify_headers lines = [])
    (hnd : ((identify_headers lines).map fun c => c.title).Nodup)
    (hce : ce ∈ withEnds (identify_headers lines) lines.length) :
    dictLookup (group_sections lines) ce.1.title =
      some (pyStrip (joinNL (sectionBodyLines lines ce.1 ce.2))) := by
  have hnd2 : ((withEnds (identify_headers lines) lines.length).map
      fun ce2 => ce2.1.title).Nodup := by
    have h1 := withEnds_map_fst (identify_headers lines) lines.length
    have h2 : ((withEnds (identify_headers lines) lines.length).map
        fun ce2 => ce2.1.title) = (identify_headers lines).map fun c => c.title := by
      have h3 := congrArg (List.map fun c : HeaderCandidate => c.title) h1
      rw [List.map_map] at h3
      exact h3
    rw [h2]
    exact hnd
  unfold group_sections
  rw [if_neg hh,
    foldl_insert_lookup (fun ce2 : HeaderCandidate × Nat => ce2.1.title)
      (fun ce2 => pyStrip (joinNL (sectionBodyLines lines ce2.1 ce2.2)))
      (withEnds (identify_headers lines) lines.length) [] ce.1.title hnd2,
    find?_eq_some_of_nodup (fun ce2 : HeaderCandidate × Nat => ce2.1.title)
      (withEnds (identify_headers lines) lines.length) ce hnd2 hce]

theorem withEnds_cover : ∀ (hs : List HeaderCandidate) (n i : Nat),
    hs ≠ [] → hs.headI.index ≤ i → i < n →
    (∃ c ∈ hs, c.index = i) ∨
      ∃ ce ∈ withEnds hs n, ce.1.index < i ∧ i < ce.2 := by
  intro hs
  induction hs with
  | nil =>
    intro n i h
    exact absurd rfl h
  | cons c rest ih =>
    intro n i _ hhead hi
    cases rest with
    | nil =>
      by_cases hci : c.index = i
      · exact Or.inl ⟨c, List.mem_cons_self c [], hci⟩
      · refine Or.inr ⟨(c, n), List.mem_cons_self _ _, ?_, hi⟩
        exact lt_of_le_of_ne hhead hci
    | cons c' rest' =>
      by_cases hlt : i < c'.index
      · by_cases hci : c.index = i
        · exact Or.inl ⟨c, List.mem_cons_self _ _, hci⟩
        · exact Or.inr ⟨(c, c'.index), List.mem_cons_self _ _,
            lt_of_le_of_ne hhead hci, hlt⟩
      · push_neg at hlt
        rcases ih n i (List.cons_ne_nil c' rest') hlt hi with ⟨d, hd, hdi⟩ | ⟨ce, hce, hsp⟩
        · exact Or.inl ⟨d, List.mem_cons_of_mem c hd, hdi⟩
        · exact Or.inr ⟨ce, List.mem_cons_of_mem (c, c'.index) hce, hsp⟩

theorem withEnds_unique : ∀ (hs : List HeaderCandidate) (n i : Nat),
    List.Pairwise (fun a b : HeaderCandidate => a.index < b.index) hs →
    ∀ ce ∈ withEnds hs n, ∀ ce' ∈ withEnds hs n,
      ce.1.index < i → i < ce.2 → ce'.1.index < i → i < ce'.2 → ce = ce' := by
  intro hs
  induction hs with
  | nil =>
    intro n i _ ce hce
    cases hce
  | cons c rest ih =>
    intro n i hpw ce hce ce' hce' h1 h2 h1' h2'
    cases rest with
    | nil =>
      rcases List.mem_cons.mp hce with rfl | hm
      · rcases List.mem_cons.mp hce' with rfl | hm'
        · rfl
        · cases hm'
      · cases hm
    | cons c' rest' =>
      have hkey : ∀ z ∈ withEnds (c' :: rest') n, c'.index ≤ z.1.index := by
        intro z hz
        have hz1 := withEnds_mem hz
        rcases List.mem_cons.mp hz1 with he | hm
        · rw [he]
        · exact le_of_lt ((List.pairwise_cons.mp (List.pairwise_cons.mp hpw).2).1 _ hm)
      rcases List.mem_cons.mp hce with rfl | hm
      · rcases List.mem_cons.mp hce' with rfl | hm'
        · rfl
        · exact absurd (lt_of_le_of_lt (hkey ce' hm') h1') (by omega)
      · rcases List.mem_cons.mp hce' with rfl | hm'
        · exact absurd (lt_of_le_of_lt (hkey ce hm) h1) (by omega)
        · exact ih n i (List.pairwise_cons.mp hpw).2 ce hm ce' hm' h1 h2 h1' h2'

theorem mem_slice : ∀ (l : List PyStr) (a e i : Nat) (hi : i < l.length), a ≤ i → i < e →
    l.get ⟨i, hi⟩ ∈ (l.drop a).take (e - a) := by
  intro l
  induction l with
  | nil =>
    intro a e i hi
    simp at hi
  | cons x t ih =>
    intro a e i hi ha he
    cases a with
    | zero =>
      cases i with
      | zero =>
        cases e with
        | zero => omega
        | succ e' =>
          show x ∈ ((x :: t).drop 0).take (e' + 1)
          rw [List.drop_zero, List.take_succ_cons]
          exact List.mem_cons_self x _
      | succ j =>
        cases e with
        | zero => omega
        | succ e' =>
          show t.get ⟨j, by simp only [List.length_cons] at hi; omega⟩ ∈
            ((x :: t).drop 0).take (e' + 1)
          rw [List.drop_zero, List.take_succ_cons]
          refine List.mem_cons_of_mem x ?_
          have hmem := ih 0 e' j (by simp only [List.length_cons] at hi; omega)
            (Nat.zero_le j) (by omega)
          rw [List.drop_zero] at hmem
          exact hmem
    | succ a' =>
      cases i with
      | zero => omega
      | succ j =>
        show t.get ⟨j, by simp only [List.length_cons] at hi; omega⟩ ∈
          (t.drop a').take (e - (a' + 1))
        have hee : e - (a' + 1) = (e - 1) - a' := by omega
        rw [hee]
        exact ih a' (e - 1) j (by simp only [List.length_cons] at hi; omega)
          (by omega) (by omega)

theorem mem_sectionBodyLines {lines : List PyStr} {c : HeaderCandidate} {e i : Nat}
    (hi : i < lines.length) (h1 : c.index < i) (h2 : i < e)
    (hne : ¬ pyStrip (lines.get ⟨i, hi⟩) = []) :
    pyStrip (lines.get ⟨i, hi⟩) ∈ sectionBodyLines lines c e := by
  unfold sectionBodyLines
  apply List.mem_append_right
  apply List.mem_filterMap.mpr
  refine ⟨lines.get ⟨i, hi⟩, ?_, by rw [if_pos hne]⟩
  exact mem_slice lines (c.index + 1) e i hi (by omega) h2

/-- C1 (counterexample): the claim promises that every non-empty cleaned line
lands in exactly one section body or is itself a header line.  Three failure
modes refute it.  In the first document the preamble line `"pre"` (line 0,
before the first header) and the line `"x"` (line 2, the body of the first
of two sections with the duplicate title `"A"`) are non-empty and are not
header lines, yet occur in no section body: `group_sections` drops every
line before the first header, and the later duplicate title overwrites the
earlier section's body in the dict.  In the second document the numeric
character reference `&#10;` unescapes to a newline, so cleaning yields the
non-empty whitespace-only line `" "` (line 2); it is not a header line, and
because the grouping loop keeps only lines whose strip is non-empty, it is a
member of no section's body-line list. -/
theorem claim_C1_counterexample :
    (splitNL (clean_text (pys "pre\n【A】\nx\n【A】\ny")) =
      [pys "pre", pys "【A】", pys "x", pys "【A】", pys "y"] ∧
    group_sections (splitNL (clean_text (pys "pre\n【A】\nx\n【A】\ny"))) =
      [(pys "A", pys "y")] ∧
    (∀ c ∈ identify_headers (splitNL (clean_text (pys "pre\n【A】\nx\n【A】\ny"))),
      ¬ c.index = 0 ∧ ¬ c.index = 2) ∧
    ∀ kv ∈ group_sections (splitNL (clean_text (pys "pre\n【A】\nx\n【A】\ny"))),
      isSubstr (pys "pre") kv.2 = false ∧ isSubstr (pys "x") kv.2 = false) ∧
    splitNL (clean_text (pys "【A】\na&#10; &#10;b")) =
      [pys "【A】", pys "a", pys " ", pys "b"] ∧
    ¬ (pys " " : PyStr) = [] ∧ pyStrip (pys " ") = [] ∧
    (∀ c ∈ identify_headers (splitNL (clean_text (pys "【A】\na&#10; &#10;b"))),
      ¬ c.index = 2) ∧
    ∀ ce ∈ withEnds (identify_headers (splitNL (clean_text (pys "【A】\na&#10; &#10;b"))))
      (splitNL (clean_text (pys "【A】\na&#10; &#10;b"))).length,
      ¬ (pys " ") ∈ sectionBodyLines (splitNL (clean_text (pys "【A】\na&#10; &#10;b")))
        ce.1 ce.2 := by
  exact ⟨⟨by decide, by decide, by decide, by decide⟩, by decide, by decide, by decide,
    by decide, by decide⟩

/-- C1 (amended): over the cleaned and split text, when at least one header
is detected, the header titles are pairwise distinct, and the line index is
not before the first header, every line that is non-blank — its strip is
non-empty, the condition the grouping loop itself tests — either is a header
line or lies in the span of exactly one `withEnds` entry; its stripped text
is then a member of that entry's body-line list, and `group_sections` maps
that entry's title to exactly the stripped join of those body lines.  The
hypotheses restate the counterexample's failure modes: preamble lines
(before the first header) are dropped, a duplicated title loses the earlier
section's lines, and a non-empty but whitespace-only line (possible after
cleaning via numeric character references) is discarded. -/
theorem claim_C1_amended (raw : PyStr) (lines : List PyStr) (i : Nat)
    (hlines : lines = splitNL (clean_text raw))
    (hh : ¬ identify_headers lines = [])
    (hnd : ((identify_headers lines).map fun c => c.title).Nodup)
    (hi : i < lines.length)
    (hfirst : (identify_headers lines).headI.index ≤ i)
    (hne : ¬ pyStrip (lines.get ⟨i, hi⟩) = []) :
    (∃ c ∈ identify_headers lines, c.index = i) ∨
      ∃ ce ∈ withEnds (identify_headers lines) lines.length,
        (ce.1.index < i ∧ i < ce.2) ∧
        pyStrip (lines.get ⟨i, hi⟩) ∈ sectionBodyLines lines ce.1 ce.2 ∧
        dictLookup (group_sections lines) ce.1.title =
          some (pyStrip (joinNL (sectionBodyLines lines ce.1 ce.2))) ∧
        ∀ ce' ∈ withEnds (identify_headers lines) lines.length,
          ce'.1.index < i → i < ce'.2 → ce' = ce := by
  subst hlines
  rcases withEnds_cover (identify_headers (splitNL (clean_text raw)))
      (splitNL (clean_text raw)).length i hh hfirst hi
    with hcase | ⟨ce, hce, hsp1, hsp2⟩
  · exact Or.inl hcase
  · refine Or.inr ⟨ce, hce, ⟨hsp1, hsp2⟩, ?_, group_sections_lookup hh hnd hce, ?_⟩
    · exact mem_sectionBodyLines hi hsp1 hsp2 hne
    · intro ce' hce' h1' h2'
      exact withEnds_unique _ _ i (identify_headers_pairwise _) ce' hce' ce hce h1' h2'
        hsp1 hsp2

/-- C1 (witness): the amended statement at the document `"pre\n【A】\nx"` and
line index 2, the non-blank body line `"x"` of the single section `"A"`. -/
theorem claim_C1_witness :
    (¬ identify_headers (splitNL (clean_text (pys "pre\n【A】\nx"))) = [] ∧
     ¬ pyStrip ((splitNL (clean_text (pys "pre\n【A】\nx"))).get ⟨2, by decide⟩) = []) ∧
    ((∃ c ∈ identify_headers (splitNL (clean_text (pys "pre\n【A】\nx"))), c.index = 2) ∨
      ∃ ce ∈ withEnds (identify_headers (splitNL (clean_text (pys "pre\n【A】\nx"))))
        (splitNL (clean_text (pys "pre\n【A】\nx"))).length,
        (ce.1.index < 2 ∧ 2 < ce.2) ∧
        pyStrip ((splitNL (clean_text (pys "pre\n【A】\nx"))).get ⟨2, by decide⟩) ∈
          sectionBodyLines (splitNL (clean_text (pys "pre\n【A】\nx"))) ce.1 ce.2 ∧
        dictLookup (group_sections (splitNL (clean_text (pys "pre\n【A】\nx")))) ce.1.title =
          some (pyStrip (joinNL (sectionBodyLines (splitNL (clean_text (pys "pre\n【A】\nx")))
            ce.1 ce.2))) ∧
        ∀ ce' ∈ withEnds (identify_headers (splitNL (clean_text (pys "pre\n【A】\nx"))))
          (splitNL (clean_text (pys "pre\n【A】\nx"))).length,
          ce'.1.index < 2 → 2 < ce'.2 → ce' = ce) :=
  ⟨⟨by decide, by decide⟩, claim_C1_amended (pys "pre\n【A】\nx") _ 2 rfl (by decide)
    (by decide) (by decide) (by decide) (by decide)⟩
